import Mathlib

/-!
Verification development for the PDF outline extractor
(`EnhancedPDFOutlineExtractor` in `src/main.py`).

Modelling conventions, fixed throughout this file:

* Python strings are modelled as `List Char`.  String methods are modelled
  on the ASCII fragment (Python's `str.lower`, `str.isupper`, `\s`, `\d`,
  `[A-Z]` are Unicode-aware; every concrete input considered here is
  ASCII plus the control characters the code manipulates, so the ASCII
  model is faithful on the inputs of interest).  `\s` is modelled by the
  characters Python's `re` module treats as whitespace in the BMP-ASCII
  range (space, TAB, LF, CR, VT, FF, FS, GS, RS, US) plus NEL (0x85).
* Python floats (font sizes, confidences) are modelled as exact rationals
  (`Rat`).  Every comparison the claims exercise is far from a binary64
  rounding boundary; in particular the only delicate one,
  `confidence > 0.4` at an exact sum of 0.4, agrees with CPython
  (0.3+0.1 and 0.2+0.2 both round to the same double as the literal 0.4,
  so the strict comparison is false there, as in the rational model).
* The anchored regular expressions used by the code are compiled by hand
  into deterministic matchers.  This is sound because in every pattern the
  adjacent character classes (`\d`, `\.`, `\s`, `[A-Z]`, ...) are
  pairwise disjoint, so the greedy, non-backtracking reading coincides
  with Python's backtracking semantics.
* PyMuPDF (`fitz`) is an external collaborator: a document is modelled as
  its table of contents plus per-page block/line/span data, and
  `fitz.open` as an `Except`-valued input.
-/

/- Batteries marks the `Rat` arithmetic operations `@[irreducible]`; the
kernel is free to unfold them, and the concrete witnesses below evaluate
the pipeline by `decide`, so restore default reducibility for them. -/
set_option allowUnsafeReducibility true
attribute [semireducible] Rat.mul Rat.add Rat.ofScientific Rat.inv Rat.sub

/-! ## Character classes (ASCII models of Python predicates) -/

/-- Python `re` whitespace `\s` (ASCII range plus NEL). -/
def isPySpace (c : Char) : Bool :=
  decide (c.toNat = 32 ∨ c.toNat = 9 ∨ c.toNat = 10 ∨ c.toNat = 13 ∨ c.toNat = 11 ∨
    c.toNat = 12 ∨ c.toNat = 28 ∨ c.toNat = 29 ∨ c.toNat = 30 ∨ c.toNat = 31 ∨ c.toNat = 133)

/-- The control characters stripped by `_clean_text`:
`[\x00-\x08\x0B\x0C\x0E-\x1F\x7F]`. -/
def isCtrlChar (c : Char) : Bool :=
  decide (c.toNat ≤ 8 ∨ c.toNat = 11 ∨ c.toNat = 12 ∨
    (14 ≤ c.toNat ∧ c.toNat ≤ 31) ∨ c.toNat = 127)

/-- Python `\d` (ASCII). -/
def isDigitChar (c : Char) : Bool :=
  decide (48 ≤ c.toNat ∧ c.toNat ≤ 57)

/-- ASCII letter; with `re.IGNORECASE`, `[A-Z]` and `[a-z]` both match
exactly this class on ASCII input. -/
def isAlphaChar (c : Char) : Bool :=
  decide ((65 ≤ c.toNat ∧ c.toNat ≤ 90) ∨ (97 ≤ c.toNat ∧ c.toNat ≤ 122))

/-- ASCII lowercase letter (for the `isupper` model). -/
def isLowerChar (c : Char) : Bool :=
  decide (97 ≤ c.toNat ∧ c.toNat ≤ 122)

/-- Python `str.lower` on one character (ASCII model). -/
def pyLower (c : Char) : Char :=
  if 65 ≤ c.toNat ∧ c.toNat ≤ 90 then Char.ofNat (c.toNat + 32) else c

/-- Python `str.lower` on a string. -/
def toLowerL (s : List Char) : List Char := s.map pyLower

/-- Python `str.isupper` (ASCII model): at least one cased character and
no lowercase character. -/
def pyIsUpper (s : List Char) : Bool :=
  s.all (fun c => !(isLowerChar c)) && s.any (fun c => isAlphaChar c)

/-! ## String helpers -/

/-- Python `str.strip()` (whitespace from both ends). -/
def pyStrip (s : List Char) : List Char :=
  ((s.dropWhile isPySpace).reverse.dropWhile isPySpace).reverse

/-- One pass of `re.sub(r'\s+', ' ', s)`: the flag records whether the
previous character was whitespace (in which case further whitespace is
dropped rather than emitted). -/
def collapseGo : Bool → List Char → List Char
  | _, [] => []
  | prevSpace, c :: t =>
    if isPySpace c then
      if prevSpace then collapseGo true t else ' ' :: collapseGo true t
    else c :: collapseGo false t

/-- `re.sub(r'\s+', ' ', s)`: collapse every whitespace run to one space. -/
def collapseWs (s : List Char) : List Char := collapseGo false s

/-- `_clean_text`: strip, collapse whitespace runs, then remove control
characters.  (The final `encode('utf-8','ignore').decode('utf-8')` is the
identity on the valid unicode strings modelled here.) -/
def cleanText (s : List Char) : List Char :=
  (collapseWs (pyStrip s)).filter (fun c => !(isCtrlChar c))

/-- Python `needle in haystack` (substring containment). -/
def isInfixL (needle haystack : List Char) : Bool :=
  (List.range (haystack.length + 1)).any (fun i => needle.isPrefixOf (haystack.drop i))

/-! ## Hand-compiled anchored regular expressions

Each matcher implements one `re.match` pattern from the source.  The
classes adjacent in each pattern are disjoint, so greedy matching without
backtracking is equivalent to Python's semantics. -/

/-- Consume `\d+`: `some rest` iff the string starts with at least one
digit, where `rest` is everything after the maximal digit run. -/
def afterDigits (s : List Char) : Option (List Char) :=
  if (s.takeWhile isDigitChar).isEmpty then none else some (s.dropWhile isDigitChar)

/-- Consume `\.?` (optional literal dot). -/
def skipDot : List Char → List Char
  | c :: t => if c = '.' then t else c :: t
  | [] => []

/-- Consume a mandatory literal dot `\.`. -/
def expectDot : List Char → Option (List Char)
  | c :: t => if c = '.' then some t else none
  | [] => none

/-- Does the string start with a `\s` character (so `\s+` can match)? -/
def startsWithSpace : List Char → Bool
  | c :: _ => isPySpace c
  | [] => false

/-- `re.match(r'^\d+\.?\s+', s)` (rule 1 of `_determine_heading_level`). -/
def matchNum1 (s : List Char) : Bool :=
  match afterDigits s with
  | some r => startsWithSpace (skipDot r)
  | none => false

/-- `re.match(r'^\d+\.\d+\.?\s+', s)` (rule 2 of `_determine_heading_level`,
also pattern 2 of `_matches_heading_patterns`). -/
def matchNum2 (s : List Char) : Bool :=
  match (afterDigits s).bind expectDot with
  | some r1 =>
    match afterDigits r1 with
    | some r2 => startsWithSpace (skipDot r2)
    | none => false
  | none => false

/-- `re.match(r'^\d+\.\d+\.\d+\.?\s+', s)` (rule 3 of
`_determine_heading_level`). -/
def matchNum3 (s : List Char) : Bool :=
  match (afterDigits s).bind expectDot with
  | some r1 =>
    match (afterDigits r1).bind expectDot with
    | some r2 =>
      match afterDigits r2 with
      | some r3 => startsWithSpace (skipDot r3)
      | none => false
    | none => false
  | none => false

/-- `re.match(r'^\d+\.?\s+[A-Z]', s, re.IGNORECASE)` (pattern 1,
"numbered"): with `IGNORECASE`, `[A-Z]` matches any ASCII letter. -/
def hpNumbered (s : List Char) : Bool :=
  match afterDigits s with
  | some r =>
    let r1 := skipDot r
    (!(r1.takeWhile isPySpace).isEmpty) &&
      (match r1.dropWhile isPySpace with
       | c :: _ => isAlphaChar c
       | [] => false)
  | none => false

/-- `re.match(r'^(Chapter|Section|Part)\s+\d+', s, re.IGNORECASE)`
(pattern 3, keyword-prefixed). -/
def hpKeyword (s : List Char) : Bool :=
  let ls := toLowerL s
  let check := fun (kw : List Char) =>
    kw.isPrefixOf ls &&
      (let r := ls.drop kw.length
       (!(r.takeWhile isPySpace).isEmpty) &&
         (match r.dropWhile isPySpace with
          | c :: _ => isDigitChar c
          | [] => false))
  check "chapter".data || check "section".data || check "part".data

/-- `re.match(r'^[A-Z][A-Z\s]{2,}$', s, re.IGNORECASE)` (pattern 4,
"all caps"; with `IGNORECASE` it accepts any letters): a letter followed
by at least two letters-or-whitespace, to the end of the string. -/
def hpAllCaps : List Char → Bool
  | c :: t =>
    isAlphaChar c && decide (2 ≤ t.length) &&
      t.all (fun d => isAlphaChar d || isPySpace d)
  | [] => false

/-- Tail of the title-case pattern: `(\s+[A-Z][a-z]*)*$` with
`IGNORECASE`, i.e. a possibly empty sequence of (whitespace run, letter
word) pairs reaching the end of the string.  The fuel argument only bounds
the recursion depth (each step consumes at least one character, so with
fuel at least the string length it never runs out); structural recursion
on it keeps the definition kernel-reducible. -/
def titleCaseTailGo : Nat → List Char → Bool
  | _, [] => true
  | 0, _ :: _ => false
  | fuel + 1, c :: t =>
    if isPySpace c then
      let r := t.dropWhile isPySpace
      if (r.takeWhile isAlphaChar).isEmpty then false
      else titleCaseTailGo fuel (r.dropWhile isAlphaChar)
    else false

def titleCaseTail (s : List Char) : Bool := titleCaseTailGo s.length s

/-- `re.match(r'^[A-Z][a-z]+(\s+[A-Z][a-z]*)*$', s, re.IGNORECASE)`
(pattern 5, title case; `IGNORECASE` collapses both classes to
"any ASCII letter"): a first word of at least two letters, then
whitespace-separated letter words, to the end. -/
def hpTitleCase (s : List Char) : Bool :=
  decide (2 ≤ (s.takeWhile isAlphaChar).length) && titleCaseTail (s.dropWhile isAlphaChar)

/-- The exact section names of pattern 6 (compared case-insensitively,
anchored on both sides). -/
def commonSectionNames : List (List Char) :=
  ["abstract".data, "introduction".data, "conclusion".data, "references".data,
   "bibliography".data, "acknowledgment".data, "acknowledgments".data]

/-- `re.match(r'^(Abstract|Introduction|Conclusion|References|Bibliography|Acknowledgments?)$', s, re.IGNORECASE)`. -/
def hpCommonSection (s : List Char) : Bool :=
  commonSectionNames.any (fun n => toLowerL s = n)

/-- `_matches_heading_patterns`: any of the six patterns matches
`text.strip()` (case-insensitively). -/
def matchesHeadingPatterns (text : List Char) : Bool :=
  let s := pyStrip text
  hpNumbered s || matchNum2 s || hpKeyword s || hpAllCaps s || hpTitleCase s ||
    hpCommonSection s

/-- `re.match(r"^\s*[•\-\*•]\s+\S+", line_text)` (bullet lists in
`_has_content_after_heading`; the class is the three characters
bullet, hyphen, asterisk). -/
def bulletMatch (s : List Char) : Bool :=
  match s.dropWhile isPySpace with
  | c :: t =>
    (c == '•' || c == '-' || c == '*') &&
      (!(t.takeWhile isPySpace).isEmpty) && !(t.dropWhile isPySpace).isEmpty
  | [] => false

/-- `re.match(r"^\s*\(?\d+[\.\)]\s+\S+", line_text)` (numbered lists in
`_has_content_after_heading`). -/
def numberedListMatch (s : List Char) : Bool :=
  let r := s.dropWhile isPySpace
  let r1 := match r with
    | '(' :: t => t
    | _ => r
  match afterDigits r1 with
  | some r2 =>
    match r2 with
    | c :: t =>
      (c == '.' || c == ')') &&
        (!(t.takeWhile isPySpace).isEmpty) && !(t.dropWhile isPySpace).isEmpty
    | [] => false
  | none => false

/-! ## Data model

Spans, lines, blocks and pages as produced by the text-extraction
collaborator (`page.get_text("dict")`). -/

/-- A bounding box `(x0, y0, x1, y1)`. -/
structure Rect where
  x0 : Rat
  y0 : Rat
  x1 : Rat
  y1 : Rat
deriving DecidableEq

/-- A text span: `{text, size, flags, bbox}`. -/
structure Span where
  text : List Char
  size : Rat
  flags : Nat
  bbox : Rect
deriving DecidableEq

/-- One block of a page dictionary: a text block carries its lines (each a
span list); a block without a `lines` key is an image/table block when its
`type` is 1, and inert otherwise. -/
inductive Block where
  | textBlock (lines : List (List Span))
  | imageBlock
  | otherBlock
deriving DecidableEq

/-- The lines of a block (`block["lines"]` when present). -/
def blockLines : Block → List (List Span)
  | .textBlock ls => ls
  | _ => []

/-- A page is its block list. -/
abbrev PdfPage := List Block

/-- One table-of-contents entry `(level, label, page)` from `get_toc()`. -/
structure TocEntry where
  lvl : Int
  label : List Char
  page : Int
deriving DecidableEq

/-- A document as seen through the collaborator: bookmark list and pages. -/
structure PdfDoc where
  toc : List TocEntry
  pages : List PdfPage
deriving DecidableEq

/-- Heading levels. `HLevel.digit` models `int(level[1])` on the strings
"H1"/"H2"/"H3". -/
inductive HLevel where
  | H1
  | H2
  | H3
deriving DecidableEq

def HLevel.digit : HLevel → Nat
  | .H1 => 1
  | .H2 => 2
  | .H3 => 3

/-- The result of `_analyze_line`. -/
structure LineData where
  text : List Char
  size : Rat
  flags : Nat
  bbox : Option Rect
  confidence : Rat
deriving DecidableEq

/-- An internal heading record (page is 0-based here). -/
structure Heading where
  level : HLevel
  text : List Char
  page : Nat
  confidence : Rat
  bbox : Option Rect
deriving DecidableEq

/-- An output heading, after `confidence`/`bbox` are stripped and the page
made 1-based. -/
structure OutHeading where
  level : HLevel
  text : List Char
  page : Nat
deriving DecidableEq

/-- `_filter_headings_with_subtext`'s emission step: drop `confidence` and
`bbox`, convert the page to 1-based. -/
def emitHeading (h : Heading) : OutHeading :=
  { level := h.level, text := h.text, page := h.page + 1 }

/-- The `h1`/`h2`/`h3` font-size thresholds. -/
structure Thresholds where
  h1 : Rat
  h2 : Rat
  h3 : Rat
deriving DecidableEq

/-- Final per-document result `{title, outline}`. -/
structure PdfResult where
  title : List Char
  outline : List OutHeading
deriving DecidableEq

/-! ## FontBaselineAnalyzer (`_analyze_document_fonts`) -/

/-- The sizes of all non-empty spans on the first `min(3, pageCount)`
pages, in scan order. -/
def spanSizesForFonts (pages : List PdfPage) : List Rat :=
  (pages.take 3).flatMap (fun page =>
    page.flatMap (fun bl =>
      (blockLines bl).flatMap (fun line =>
        (line.filter (fun sp => !(pyStrip sp.text).isEmpty)).map Span.size)))

/-- Scan for the most frequent value, keeping the earlier value on ties
(only a strictly greater count replaces the current best).  Equivalent to
`Counter(l).most_common(1)[0][0]`: `most_common` stably sorts the counter
items, whose insertion order is first-occurrence order, by descending
count, so the winner is the earliest-first-occurring value of maximal
count — exactly what this left-to-right scan computes, since a value can
only displace the running best at its first occurrence (later occurrences
of an already-seen value can never have a strictly greater count than the
running best, whose count is maximal among everything seen). -/
def pickBest (l : List Rat) (cur : Rat) : List Rat → Rat
  | [] => cur
  | x :: xs => if l.count cur < l.count x then pickBest l x xs else pickBest l cur xs

/-- `Counter(l).most_common(1)[0][0]` for nonempty `l`. -/
def mostCommon1 (l : List Rat) : Option Rat :=
  match l with
  | [] => none
  | x :: xs => some (pickBest (x :: xs) x xs)

/-- `_analyze_document_fonts`: the document baseline
(`self.common_font_size`), 12 when no non-empty span exists. -/
def analyzeDocumentFonts (pages : List PdfPage) : Rat :=
  (mostCommon1 (spanSizesForFonts pages)).getD 12

/-- `_calculate_size_thresholds` (note the Python `or 12`: a falsy — zero —
baseline is replaced by 12 here, but nowhere else). -/
def calculateSizeThresholds (baseline : Rat) : Thresholds :=
  let b := if baseline = 0 then 12 else baseline
  { h1 := b * 1.4, h2 := b * 1.2, h3 := b * 1.1 }

/-! ## TitleDetector (`_extract_title_enhanced` and helpers) -/

/-- `_is_potential_title`. -/
def isPotentialTitle (baseline : Rat) (text : List Char) (size : Rat) (flags : Nat) : Bool :=
  if text.isEmpty || decide (text.length < 3) || decide (150 < text.length) then false
  else
    let skipWords : List (List Char) :=
      ["copyright".data, "version".data, "page".data, "©".data, "confidential".data,
       "draft".data, "revision".data, "date".data, "author".data]
    if skipWords.any (fun w => isInfixL (toLowerL w) (toLowerL text)) then false
    else decide (size > baseline * 1.2) || decide (flags &&& 16 ≠ 0)

/-- A title candidate collected on page 1. -/
structure TitleCand where
  text : List Char
  size : Rat
  y : Option Rat
deriving DecidableEq

/-- Accumulator of the per-line span walk in `_extract_title_from_text`:
running joined text, max size, min y-position (`float('inf')` start is
modelled by `none`), OR-ed flags. -/
structure TitleLineAcc where
  text : List Char
  size : Rat
  y : Option Rat
  flags : Nat

def titleLineStep (acc : TitleLineAcc) (sp : Span) : TitleLineAcc :=
  let t := pyStrip sp.text
  if t.isEmpty then acc
  else
    { text := acc.text ++ t ++ [' '],
      size := max acc.size sp.size,
      y := some (match acc.y with
                 | none => sp.bbox.y0
                 | some u => min u sp.bbox.y0),
      flags := acc.flags ||| sp.flags }

/-- The per-line analysis of `_extract_title_from_text`. -/
def titleLineData (spans : List Span) : TitleLineAcc :=
  let acc := spans.foldl titleLineStep { text := [], size := 0, y := none, flags := 0 }
  { acc with text := pyStrip acc.text }

/-- The candidate sort key `(-size, y_pos)` as a strict order: bigger size
first, then smaller y first (`none` is `float('inf')`, sorting last). -/
def titleCandLt (a b : TitleCand) : Bool :=
  decide (b.size < a.size) ||
    (a.size == b.size &&
      (match a.y, b.y with
       | some u, some v => decide (u < v)
       | some _, none => true
       | none, _ => false))

/-- Stable insertion into a sorted list: `x` goes before the first element
strictly greater than it (so equal keys keep their input order, as with
Python's stable `list.sort`). -/
def sortedInsertBy {α : Type} (lt : α → α → Bool) (x : α) : List α → List α
  | [] => [x]
  | y :: ys => if lt x y then x :: y :: ys else y :: sortedInsertBy lt x ys

/-- Stable insertion sort (models Python's stable `list.sort(key=...)`). -/
def insertionSortBy {α : Type} (lt : α → α → Bool) : List α → List α
  | [] => []
  | x :: xs => sortedInsertBy lt x (insertionSortBy lt xs)

/-- `"  ".join(...)` of the top-two candidate texts. -/
def joinTopTwo (texts : List (List Char)) : List Char :=
  List.intercalate ("  ".data) texts

/-- `_extract_title_from_text`. -/
def extractTitleFromText (pages : List PdfPage) (baseline : Rat) : List Char :=
  match pages with
  | [] => "Unknown Title".data
  | page :: _ =>
    let cands := page.flatMap (fun bl =>
      (blockLines bl).filterMap (fun spans =>
        let ld := titleLineData spans
        if isPotentialTitle baseline ld.text ld.size ld.flags then
          some { text := ld.text, size := ld.size, y := ld.y : TitleCand }
        else none))
    if cands.isEmpty then "Unknown Title".data
    else
      cleanText (joinTopTwo (((insertionSortBy titleCandLt cands).take 2).map TitleCand.text))

/-- The bookmark prefixes that disqualify a first bookmark as a title. -/
def tocSkipStarts : List (List Char) :=
  ["table of contents".data, "contents".data, "toc".data]

/-- `_extract_title_enhanced`: bookmark strategy first, else page-1 text. -/
def extractTitleEnhanced (d : PdfDoc) (baseline : Rat) : List Char :=
  match d.toc with
  | [] => extractTitleFromText d.pages baseline
  | e :: _ =>
    let fb := pyStrip e.label
    if !fb.isEmpty &&
        !(tocSkipStarts.any (fun p => p.isPrefixOf (toLowerL fb))) &&
        decide (3 < fb.length) then
      cleanText fb
    else extractTitleFromText d.pages baseline

/-! ## HeadingCandidateClassifier -/

/-- `_calculate_confidence` (additive weights, capped at 1). -/
def calculateConfidence (baseline : Rat) (text : List Char) (size : Rat) (flags : Nat) : Rat :=
  let c1 : Rat := if size > baseline * 1.3 then 0.3
                  else if size > baseline * 1.1 then 0.2 else 0
  let c2 := c1 + (if flags &&& 16 ≠ 0 then (0.2 : Rat) else 0)
  let c3 := c2 + (if matchesHeadingPatterns text then (0.3 : Rat) else 0)
  let c4 := c3 + (if 5 ≤ text.length ∧ text.length ≤ 100 then (0.1 : Rat) else 0)
  min c4 1

/-- Accumulator of the span walk in `_analyze_line`. -/
structure LineAcc where
  text : List Char
  size : Rat
  flags : Nat
  bbox : Option Rect

def analyzeLineStep (acc : LineAcc) (sp : Span) : LineAcc :=
  let t := pyStrip sp.text
  if t.isEmpty then acc
  else
    { text := acc.text ++ t ++ [' '],
      size := max acc.size sp.size,
      flags := acc.flags ||| sp.flags,
      bbox := match acc.bbox with
              | some b => some b
              | none => some sp.bbox }

/-- `_analyze_line`: `none` when the merged text is shorter than 2. -/
def analyzeLine (baseline : Rat) (spans : List Span) : Option LineData :=
  let acc := spans.foldl analyzeLineStep { text := [], size := 0, flags := 0, bbox := none }
  let lt := pyStrip acc.text
  if lt.length < 2 then none
  else some { text := lt, size := acc.size, flags := acc.flags, bbox := acc.bbox,
              confidence := calculateConfidence baseline lt acc.size acc.flags }

/-- `_is_heading_candidate`. -/
def isHeadingCandidate (ld : LineData) (th : Thresholds) : Bool :=
  if decide (200 < ld.text.length) || decide (ld.text.length < 3) then false
  else
    (decide (th.h3 ≤ ld.size) || matchesHeadingPatterns ld.text) &&
      decide (ld.confidence > 0.4)

/-- `_determine_heading_level`: numbering-pattern precedence, then size. -/
def determineHeadingLevel (ld : LineData) (th : Thresholds) : HLevel :=
  let s := pyStrip ld.text
  if matchNum1 s then .H1
  else if matchNum2 s then .H2
  else if matchNum3 s then .H3
  else if th.h1 ≤ ld.size then .H1
  else if th.h2 ≤ ld.size then .H2
  else .H3

/-- The metadata words skipped on non-first pages. -/
def metadataSkipWords : List (List Char) :=
  ["overview".data, "version".data, "date".data, "remarks".data,
   "identifier".data, "reference".data]

def mkHeading (ld : LineData) (th : Thresholds) (pageNum : Nat) : Heading :=
  { level := determineHeadingLevel ld th,
    text := cleanText ld.text,
    page := pageNum,
    confidence := ld.confidence,
    bbox := ld.bbox }

/-- One line step of `_extract_page_headings`.  The accumulator is the
page's headings in reverse order, so its head is `prev`, the most recently
appended heading (the Python code mutates that same dict in place for the
"syllabus" merge). -/
def pageHeadingStep (baseline : Rat) (th : Thresholds) (extractedTitle : List Char)
    (pageNum : Nat) (revAcc : List Heading) (spans : List Span) : List Heading :=
  match analyzeLine baseline spans with
  | none => revAcc
  | some ld =>
    let t := pyStrip (toLowerL ld.text)
    if t ∈ metadataSkipWords ∧ pageNum ≠ 0 then revAcc
    else if t = extractedTitle then revAcc
    else if isHeadingCandidate ld th then
      match revAcc with
      | prev :: rest =>
        if pyStrip (toLowerL ld.text) = "syllabus".data then
          { prev with text := prev.text ++ [' '] ++ ld.text } :: rest
        else mkHeading ld th pageNum :: prev :: rest
      | [] => [mkHeading ld th pageNum]
    else revAcc

/-- `_extract_page_headings`. -/
def extractPageHeadings (baseline : Rat) (th : Thresholds) (extractedTitle : List Char)
    (pageNum : Nat) (page : PdfPage) : List Heading :=
  ((page.flatMap blockLines).foldl
    (pageHeadingStep baseline th extractedTitle pageNum) []).reverse

/-- All raw headings of the document, page by page. -/
def collectHeadings (pages : List PdfPage) (baseline : Rat) (th : Thresholds)
    (extractedTitle : List Char) : List Heading :=
  pages.enum.flatMap (fun p => extractPageHeadings baseline th extractedTitle p.1 p.2)

/-! ## Deduplicator/Sorter (`_post_process_headings`) -/

/-- The deduplication key `(text, page)`. -/
def hkey (h : Heading) : List Char × Nat := (h.text, h.page)

/-- The `seen`-set loop of `_post_process_headings` (the set is modelled
as the list of keys seen so far). -/
def dedupAux (seen : List (List Char × Nat)) : List Heading → List Heading
  | [] => []
  | h :: t =>
    if hkey h ∈ seen then dedupAux seen t
    else h :: dedupAux (hkey h :: seen) t

def dedupHeadings (hs : List Heading) : List Heading := dedupAux [] hs

/-- The sort key position: `bbox[1]` when a bbox is present, else 0. -/
def sortY (h : Heading) : Rat :=
  match h.bbox with
  | some b => b.y0
  | none => 0

/-- Strict lexicographic order on `(page, sortY)` for the stable sort. -/
def headingKeyLt (a b : Heading) : Bool :=
  decide (a.page < b.page) || (a.page == b.page && decide (sortY a < sortY b))

/-- `_post_process_headings`: dedup (keep first), then stable sort by
`(page, y)`. -/
def postProcessHeadings (hs : List Heading) : List Heading :=
  if hs.isEmpty then hs
  else insertionSortBy headingKeyLt (dedupHeadings hs)

/-! ## ContentPresenceFilter -/

/-- The joined text of a scanned line in `_has_content_after_heading`
(`" ".join` of the non-empty stripped span texts). -/
def contentLineText (spans : List Span) : List Char :=
  List.intercalate [' ']
    (spans.filterMap (fun sp =>
      let t := pyStrip sp.text
      if t.isEmpty then none else some t))

/-- Whether one scanned line counts as content for the given heading: the
line is skipped when empty, when it contains the heading's own text as a
case-insensitive substring, or when it matches a heading pattern;
otherwise it counts iff it is prose (long and not all-caps), a bullet
item, or a numbered-list item. -/
def lineContentContribution (headingText lineText : List Char) : Bool :=
  if lineText.isEmpty then false
  else if isInfixL (toLowerL headingText) (toLowerL lineText) then false
  else if matchesHeadingPatterns lineText then false
  else if 40 < lineText.length ∧ pyIsUpper lineText = false then true
  else if bulletMatch lineText then true
  else if numberedListMatch lineText then true
  else false

/-- The prose/bullet/numbered-list criteria alone (the test applied to the
lines that are not skipped). -/
def lineContentCriteria (lineText : List Char) : Bool :=
  if 40 < lineText.length ∧ pyIsUpper lineText = false then true
  else if bulletMatch lineText then true
  else if numberedListMatch lineText then true
  else false

/-- Scan of one page in `_has_content_after_heading`: any contributing
line of a text block, or any image/table block (`type == 1`). -/
def pageContentScan (headingText : List Char) (page : PdfPage) : Bool :=
  page.any (fun bl =>
    match bl with
    | .textBlock ls => ls.any (fun spans => lineContentContribution headingText (contentLineText spans))
    | .imageBlock => true
    | .otherBlock => false)

/-- `_has_content_after_heading`.  The scanned page window is
`[heading.page, end_page]` with `end_page = next.page` when a next heading
exists, else `min(heading.page + 1, pageCount - 1)`.  (An out-of-range
index — unreachable for headings produced by the pipeline — scans as an
empty page.) -/
def hasContentAfterHeading (pages : List PdfPage) (heading : Heading)
    (next : Option Heading) : Bool :=
  let startPage := heading.page
  let endPage : Int := match next with
    | some nh => (nh.page : Int)
    | none => min ((startPage : Int) + 1) ((pages.length : Int) - 1)
  (List.range' startPage (endPage + 1 - (startPage : Int)).toNat).any (fun pn =>
    match pages.get? pn with
    | some page => pageContentScan heading.text page
    | none => false)

/-- The `has_children` scan of `_filter_headings_with_subtext` over the
headings after the current one: stop at the first heading more than one
page later; succeed at the first heading of numerically greater level. -/
def hasChildrenScan (h : Heading) : List Heading → Bool
  | [] => false
  | h2 :: rest =>
    if h.page + 1 < h2.page then false
    else if h.level.digit < h2.level.digit then true
    else hasChildrenScan h rest

/-- `_filter_headings_with_subtext`: keep a heading iff it has children or
content, emitting it with 1-based page and without `confidence`/`bbox`. -/
def filterHeadingsWithSubtext (pages : List PdfPage) : List Heading → List OutHeading
  | [] => []
  | h :: rest =>
    if hasChildrenScan h rest || hasContentAfterHeading pages h rest.head? then
      emitHeading h :: filterHeadingsWithSubtext pages rest
    else filterHeadingsWithSubtext pages rest

/-! ## Whole-document pipeline (`process_pdf`) -/

/-- `_extract_headings_from_text` / `_extract_outline_enhanced`. -/
def extractOutlineEnhanced (pages : List PdfPage) (baseline : Rat)
    (extractedTitle : List Char) : List OutHeading :=
  let th := calculateSizeThresholds baseline
  filterHeadingsWithSubtext pages
    (postProcessHeadings (collectHeadings pages baseline th extractedTitle))

/-- The body of `process_pdf`'s `try` block after a successful open. -/
def pipelineResult (d : PdfDoc) : PdfResult :=
  let baseline := analyzeDocumentFonts d.pages
  let title := extractTitleEnhanced d baseline
  let extractedTitle := pyStrip (toLowerL title)
  { title := title, outline := extractOutlineEnhanced d.pages baseline extractedTitle }

/-- How the per-document handle was left at exit. -/
inductive HandleExit where
  | neverAcquired
  | leftOpen
  | closed
deriving DecidableEq

/-- Modelled from the spec: the external extraction collaborator
(`fitz.open` and everything it backs) can fail; its failure is injected as
the `Except.error` case of the open result, the only failure point of the
modelled pipeline (the in-Lean pipeline body is total).  `process_pdf`
itself is translated from the source: `try` opens and runs the pipeline,
`except` yields the sentinel, `finally` closes the handle when one was
acquired. -/
def processPdf (openRes : Except Unit PdfDoc) : PdfResult × HandleExit :=
  match openRes with
  | .error _ => ({ title := "Error".data, outline := [] }, .neverAcquired)
  | .ok d => (pipelineResult d, .closed)

/-! ## Concrete documents used by witnesses and counterexamples -/

/-- A span on one visual line at vertical position `y`. -/
def mkSpan (t : String) (size : Rat) (flags : Nat) (y : Rat) : Span :=
  { text := t.data, size := size, flags := flags,
    bbox := { x0 := 0, y0 := y, x1 := 100, y1 := y + 10 } }

/-- Scenario document for the content filter: an "Appendix" line at twice
the baseline, followed only by another heading-pattern line
("References") and by short non-prose filler lines. -/
def scenDoc : PdfDoc :=
  { toc := [],
    pages := [[Block.textBlock
      [[mkSpan "Appendix" 24 0 10],
       [mkSpan "References" 24 0 30],
       [mkSpan "xy zw!" 12 0 50],
       [mkSpan "xy zw!" 12 0 60],
       [mkSpan "xy zw!" 12 0 70]]]] }

/-- Document whose heading text contains a control character between
spaces ("ab \x01 cd"), retained thanks to a following prose line. -/
def ctrlDoc : PdfDoc :=
  { toc := [],
    pages := [[Block.textBlock
      [[mkSpan "ab \x01 cd" 24 16 10],
       [mkSpan "this is a long prose line, with punctuation; 123" 10 0 30,
        mkSpan "and more words here." 10 0 30]]]] }

/-- Document whose only title candidate is the 3-character line "Big". -/
def bigDoc : PdfDoc :=
  { toc := [],
    pages := [[Block.textBlock
      [[mkSpan "Big" 24 16 10],
       [mkSpan "xy zw." 10 0 30],
       [mkSpan "xy zw." 10 0 40]]]] }

/-- A control-free document with a "Syllabus" continuation line merged
into the heading, and a prose line that keeps the heading. -/
def nctrlDoc : PdfDoc :=
  { toc := [{ lvl := 1, label := "Some Document Title".data, page := 1 }],
    pages := [[Block.textBlock
      [[mkSpan "Zq Heading" 24 16 10],
       [mkSpan "Syllabus" 24 16 30],
       [mkSpan "this prose line is quite long enough;" 10 0 50,
        mkSpan "it has 123 in it," 10 0 50,
        mkSpan "and keeps going." 10 0 50]]]] }


/-! ## Claim C1: numbering-pattern precedence in `_determine_heading_level` -/

theorem digitChar_not_space {c : Char} (h : isDigitChar c = true) : isPySpace c = false := by
  simp only [isDigitChar, decide_eq_true_eq] at h
  simp only [isPySpace, decide_eq_false_iff_not]
  omega

theorem afterDigits_head_digit {s r : List Char} (h : afterDigits s = some r) :
    ∃ c t, s = c :: t ∧ isDigitChar c = true := by
  unfold afterDigits at h
  split at h
  · exact absurd h (by simp)
  · rename_i hne
    cases s with
    | nil => simp [List.takeWhile] at hne
    | cons c t =>
      refine ⟨c, t, rfl, ?_⟩
      by_contra hc
      rw [Bool.not_eq_true] at hc
      simp [List.takeWhile_cons, hc] at hne

theorem expectDot_eq_some {r r1 : List Char} (h : expectDot r = some r1) :
    r = '.' :: r1 := by
  match r with
  | [] => simp [expectDot] at h
  | c :: t =>
    by_cases hc : c = '.'
    · subst hc
      simp only [expectDot, if_pos, Option.some.injEq] at h
      rw [h]
    · simp [expectDot, hc] at h

theorem skipDot_cons_dot (t : List Char) : skipDot ('.' :: t) = t := by
  simp [skipDot]

theorem startsWithSpace_of_digit_head {u v : List Char} (h : afterDigits u = some v) :
    startsWithSpace u = false := by
  obtain ⟨c, t, rfl, hd⟩ := afterDigits_head_digit h
  simp [startsWithSpace, digitChar_not_space hd]

theorem matchNum2_elim {s : List Char} (h : matchNum2 s = true) :
    ∃ r1 r2, afterDigits s = some ('.' :: r1) ∧ afterDigits r1 = some r2 ∧
      startsWithSpace (skipDot r2) = true := by
  unfold matchNum2 at h
  split at h
  · rename_i r1 heq
    split at h
    · rename_i r2 heq2
      rcases Option.bind_eq_some.mp heq with ⟨r, hr, hdot⟩
      exact ⟨r1, r2, by rw [hr, expectDot_eq_some hdot], heq2, h⟩
    · exact absurd h (by simp)
  · exact absurd h (by simp)

theorem matchNum3_elim {s : List Char} (h : matchNum3 s = true) :
    ∃ r1 r2 r3, afterDigits s = some ('.' :: r1) ∧ afterDigits r1 = some ('.' :: r2) ∧
      afterDigits r2 = some r3 ∧ startsWithSpace (skipDot r3) = true := by
  unfold matchNum3 at h
  split at h
  · rename_i r1 heq
    split at h
    · rename_i r2 heq2
      split at h
      · rename_i r3 heq3
        rcases Option.bind_eq_some.mp heq with ⟨r, hr, hdot⟩
        rcases Option.bind_eq_some.mp heq2 with ⟨r', hr', hdot'⟩
        exact ⟨r1, r2, r3, by rw [hr, expectDot_eq_some hdot],
          by rw [hr', expectDot_eq_some hdot'], heq3, h⟩
      · exact absurd h (by simp)
    · exact absurd h (by simp)
  · exact absurd h (by simp)

/-- A text beginning `digits-dot-digits` (with more digits following) can
satisfy neither of the shallower patterns: rule 1 sees a digit where it
needs whitespace. -/
theorem matchNum1_false_of_dot {s r1 : List Char} (had : afterDigits s = some ('.' :: r1))
    (hr1 : ∃ v, afterDigits r1 = some v) : matchNum1 s = false := by
  unfold matchNum1
  split
  · rename_i r heq
    have hr : r = '.' :: r1 := by
      rw [had] at heq
      exact (Option.some.inj heq).symm
    subst hr
    rw [skipDot_cons_dot]
    obtain ⟨v, hv⟩ := hr1
    exact startsWithSpace_of_digit_head hv
  · rfl

theorem matchNum2_false_of_dots {s r1 r2 : List Char}
    (had : afterDigits s = some ('.' :: r1)) (had2 : afterDigits r1 = some ('.' :: r2))
    (hr2 : ∃ v, afterDigits r2 = some v) : matchNum2 s = false := by
  unfold matchNum2
  split
  · rename_i r1' heq
    rcases Option.bind_eq_some.mp heq with ⟨r, hr, hdot⟩
    rw [had] at hr
    have hr' : r = '.' :: r1 := (Option.some.inj hr).symm
    subst hr'
    have h1 : r1' = r1 := by
      simp only [expectDot, if_pos, Option.some.injEq] at hdot
      rw [hdot]
    subst h1
    split
    · rename_i r2' heq2
      have h2 : r2' = '.' :: r2 := by
        rw [had2] at heq2
        exact (Option.some.inj heq2).symm
      subst h2
      rw [skipDot_cons_dot]
      obtain ⟨v, hv⟩ := hr2
      exact startsWithSpace_of_digit_head hv
    · rfl
  · rfl

/-- **C1.** Heading level assignment follows numbering-pattern depth
regardless of font size: an accepted heading candidate whose (stripped)
text starts with a three-part numbering (`^\d+\.\d+\.\d+\.?\s+`, e.g.
"2.3.1 Foo") is assigned H3 whatever its size and thresholds, and one
whose text starts with a two-part numbering (`^\d+\.\d+\.?\s+`, e.g.
"1.1 Background") is assigned H2, not H1, even though the single-numeral
rule is checked first. -/
theorem numbering_level_assignment (ld : LineData) (th : Thresholds)
    (_hc : isHeadingCandidate ld th = true) :
    (matchNum3 (pyStrip ld.text) = true → determineHeadingLevel ld th = HLevel.H3) ∧
    (matchNum2 (pyStrip ld.text) = true → determineHeadingLevel ld th = HLevel.H2) := by
  constructor
  · intro h3
    obtain ⟨r1, r2, r3, had, had2, had3, hsp⟩ := matchNum3_elim h3
    have h1f : matchNum1 (pyStrip ld.text) = false :=
      matchNum1_false_of_dot had ⟨'.' :: r2, had2⟩
    have h2f : matchNum2 (pyStrip ld.text) = false :=
      matchNum2_false_of_dots had had2 ⟨r3, had3⟩
    simp only [determineHeadingLevel, h1f, h2f, h3]
    simp
  · intro h2
    obtain ⟨r1, r2, had, had2, hsp⟩ := matchNum2_elim h2
    have h1f : matchNum1 (pyStrip ld.text) = false :=
      matchNum1_false_of_dot had ⟨r2, had2⟩
    simp only [determineHeadingLevel, h1f, h2]
    simp

def ld231 : LineData :=
  { text := "2.3.1 Foo".data, size := 20, flags := 16, bbox := none,
    confidence := calculateConfidence 12 ("2.3.1 Foo".data) 20 16 }

def ld11 : LineData :=
  { text := "1.1 Background".data, size := 20, flags := 16, bbox := none,
    confidence := calculateConfidence 12 ("1.1 Background".data) 20 16 }

def th12 : Thresholds := calculateSizeThresholds 12

/-- Witness for C1 at the concrete accepted candidates "2.3.1 Foo" and
"1.1 Background" (size 20, baseline 12). -/
theorem numbering_level_assignment_witness :
    (isHeadingCandidate ld231 th12 = true ∧ determineHeadingLevel ld231 th12 = HLevel.H3) ∧
    (isHeadingCandidate ld11 th12 = true ∧ determineHeadingLevel ld11 th12 = HLevel.H2) :=
  ⟨⟨by decide, (numbering_level_assignment ld231 th12 (by decide)).1 (by decide)⟩,
   ⟨by decide, (numbering_level_assignment ld11 th12 (by decide)).2 (by decide)⟩⟩

/-! ## Claim C2: which lines the `has_content` scan excludes

The code skips a scanned line when the heading's text occurs inside the
line (`heading["text"].lower() in line_text.lower()`), not when the line
is a substring of the heading's text as the specification states. -/

def cexHeadC2 : List Char := "Introduction".data

def cexLineC2 : List Char :=
  "Introduction. This line has punctuation, and digits 123 in it?".data

/-- **C2 (counterexample).** The scanned line is not a substring of the
heading's text and matches no heading pattern, and it satisfies the prose
criteria, yet the scan does not count it as content (the code excludes it
because the heading's text occurs inside it) — refuting the claim that
every such line is tested against the prose/bullet/numbered criteria. -/
theorem content_exclusion_counterexample :
    isInfixL (toLowerL cexLineC2) (toLowerL cexHeadC2) = false ∧
    matchesHeadingPatterns cexLineC2 = false ∧
    lineContentCriteria cexLineC2 = true ∧
    lineContentContribution cexHeadC2 cexLineC2 = false := by decide

/-- **C2 (amended).** For every heading, the only lines excluded from
counting as content in the `has_content` scan are empty lines, lines that
*contain the heading's own text* as a case-insensitive substring, and
lines that themselves match a heading pattern; every other line is tested
against exactly the prose/bullet/numbered-list criteria. -/
theorem content_exclusion_amended (ht lt : List Char)
    (h1 : isInfixL (toLowerL ht) (toLowerL lt) = false)
    (h2 : matchesHeadingPatterns lt = false) :
    lineContentContribution ht lt = lineContentCriteria lt := by
  cases lt with
  | nil =>
    have hR : lineContentCriteria [] = false := by decide
    rw [hR]
    rfl
  | cons c t =>
    unfold lineContentContribution lineContentCriteria
    simp only [List.isEmpty_cons, h1, h2, Bool.false_eq_true, if_false]

def wHeadC2 : List Char := "Results".data

def wLineC2 : List Char :=
  "The experiments show: 42 improvements across all of the tested corpora.".data

/-- Witness for the amended C2 at a concrete heading and line. -/
theorem content_exclusion_amended_witness :
    lineContentContribution wHeadC2 wLineC2 = lineContentCriteria wLineC2 :=
  content_exclusion_amended wHeadC2 wLineC2 (by decide) (by decide)

/-! ## Claim C4: minimum length of an accepted title -/

/-- **C4 (counterexample).** A document whose only title candidate is the
3-character line "Big" returns the title "Big": not "Unknown Title", yet
of normalized length 3, refuting the claimed strict bound of 3
(`_is_potential_title` accepts length ≥ 3, not ≥ 4). -/
theorem title_length_counterexample :
    (processPdf (Except.ok bigDoc)).1.title = "Big".data ∧
    ("Big".data ≠ "Unknown Title".data) ∧
    ¬(3 < ("Big".data).length) := by decide

/-- **C4 (amended).** An accepted page-1 title candidate has length in
[3, 150] after trimming (the bookmark source separately requires
length > 3); hence a returned title other than "Unknown Title" is only
guaranteed source length ≥ 3, and "length > 3 after normalization" does
not hold in general. -/
theorem title_candidate_length_amended (baseline : Rat) (text : List Char) (size : Rat)
    (flags : Nat) (h : isPotentialTitle baseline text size flags = true) :
    3 ≤ text.length ∧ text.length ≤ 150 := by
  unfold isPotentialTitle at h
  split at h
  · exact absurd h (by simp)
  · rename_i hguard
    simp only [Bool.or_eq_true, decide_eq_true_eq, List.isEmpty_iff, not_or] at hguard
    obtain ⟨⟨h1, h2⟩, h3⟩ := hguard
    omega

/-- Witness for the amended C4 at the accepted candidate "Big". -/
theorem title_candidate_length_amended_witness :
    isPotentialTitle 12 ("Big".data) 24 16 = true ∧
    (3 ≤ ("Big".data).length ∧ ("Big".data).length ≤ 150) :=
  ⟨by decide, title_candidate_length_amended 12 ("Big".data) 24 16 (by decide)⟩

/-! ## Claim C9: fail-soft per-document error handling -/

/-- **C9.** When opening/processing a document fails, `process_pdf`
returns exactly the sentinel `{title: "Error", outline: []}` and no
exception reaches the caller (the function is total, with the collaborator
failure injected as the `error` case); on success it returns the pipeline
result; and on every exit path the document handle is never left open —
it is closed when acquired, and no handle was acquired on the failing
path. -/
theorem processPdf_error_handling (openRes : Except Unit PdfDoc) :
    (openRes = Except.error () →
      processPdf openRes = ({ title := "Error".data, outline := [] }, HandleExit.neverAcquired)) ∧
    (∀ d, openRes = Except.ok d →
      processPdf openRes = (pipelineResult d, HandleExit.closed)) ∧
    (processPdf openRes).2 ≠ HandleExit.leftOpen := by
  refine ⟨?_, ?_, ?_⟩
  · intro he
    subst he
    rfl
  · intro d hd
    subst hd
    rfl
  · cases openRes <;> simp [processPdf]

/-- Witness for C9 at a failing open and at a successful open. -/
theorem processPdf_error_handling_witness :
    processPdf (Except.error ()) = ({ title := "Error".data, outline := [] }, HandleExit.neverAcquired) ∧
    (processPdf (Except.error ())).2 ≠ HandleExit.leftOpen ∧
    processPdf (Except.ok bigDoc) = (pipelineResult bigDoc, HandleExit.closed) :=
  ⟨(processPdf_error_handling (Except.error ())).1 rfl,
   (processPdf_error_handling (Except.error ())).2.2,
   (processPdf_error_handling (Except.ok bigDoc)).2.1 bigDoc rfl⟩

/-! ## The content-presence filter: structural lemmas -/

/-- The filter's output is the emission of a sublist of its input. -/
theorem filter_sublist_emit (pages : List PdfPage) (hs : List Heading) :
    ∃ sub : List Heading, sub.Sublist hs ∧
      filterHeadingsWithSubtext pages hs = sub.map emitHeading := by
  induction hs with
  | nil => exact ⟨[], List.Sublist.refl [], rfl⟩
  | cons h rest ih =>
    obtain ⟨sub, hsub, heq⟩ := ih
    by_cases hc : (hasChildrenScan h rest || hasContentAfterHeading pages h rest.head?) = true
    · refine ⟨h :: sub, hsub.cons₂ h, ?_⟩
      unfold filterHeadingsWithSubtext
      rw [if_pos hc, heq]
      rfl
    · refine ⟨sub, hsub.cons h, ?_⟩
      unfold filterHeadingsWithSubtext
      rw [if_neg hc, heq]

/-- Membership in the filter's output, characterized by the retention
condition of the heading it was emitted from. -/
theorem filter_mem_iff_aux (pages : List PdfPage) (hs : List Heading) (o : OutHeading) :
    o ∈ filterHeadingsWithSubtext pages hs ↔
      ∃ i h, hs.get? i = some h ∧
        (hasChildrenScan h (hs.drop (i + 1)) ||
          hasContentAfterHeading pages h (hs.drop (i + 1)).head?) = true ∧
        o = emitHeading h := by
  induction hs with
  | nil =>
    simp [filterHeadingsWithSubtext]
  | cons h rest ih =>
    constructor
    · intro ho
      by_cases hc : (hasChildrenScan h rest || hasContentAfterHeading pages h rest.head?) = true
      · unfold filterHeadingsWithSubtext at ho
        rw [if_pos hc] at ho
        rcases List.mem_cons.mp ho with rfl | htail
        · exact ⟨0, h, rfl, by simpa using hc, rfl⟩
        · obtain ⟨i, h', hget, hcond, rfl⟩ := ih.mp htail
          exact ⟨i + 1, h', hget, by simpa using hcond, rfl⟩
      · unfold filterHeadingsWithSubtext at ho
        rw [if_neg hc] at ho
        obtain ⟨i, h', hget, hcond, rfl⟩ := ih.mp ho
        exact ⟨i + 1, h', hget, by simpa using hcond, rfl⟩
    · rintro ⟨i, h', hget, hcond, rfl⟩
      cases i with
      | zero =>
        have hh : h' = h := by
          have h2 := hget
          simp at h2
          exact h2.symm
        subst hh
        simp only [List.drop_succ_cons, List.drop_zero] at hcond
        unfold filterHeadingsWithSubtext
        rw [if_pos hcond]
        exact List.mem_cons_self _ _
      | succ i =>
        have hmem : emitHeading h' ∈ filterHeadingsWithSubtext pages rest := by
          refine ih.mpr ⟨i, h', by simpa using hget, by simpa using hcond, rfl⟩
        unfold filterHeadingsWithSubtext
        by_cases hc : (hasChildrenScan h rest || hasContentAfterHeading pages h rest.head?) = true
        · rw [if_pos hc]
          exact List.mem_cons_of_mem _ hmem
        · rw [if_neg hc]
          exact hmem

/-! ## Claim C5: 1-based pages in the final outline -/

/-- **C5.** Every heading emitted by the content-presence filter has
page ≥ 1: internally pages are 0-based, and the 0-based to 1-based
conversion happens exactly once, at the emission point of the filter —
every output entry is `emitHeading` of some input heading, with output
page equal to that heading's internal page plus one. -/
theorem emitted_page_one_based (pages : List PdfPage) (hs : List Heading) (o : OutHeading)
    (ho : o ∈ filterHeadingsWithSubtext pages hs) :
    1 ≤ o.page ∧ ∃ h ∈ hs, o = emitHeading h ∧ o.page = h.page + 1 := by
  obtain ⟨sub, hsub, heq⟩ := filter_sublist_emit pages hs
  rw [heq] at ho
  obtain ⟨h, hh, rfl⟩ := List.mem_map.mp ho
  exact ⟨by simp [emitHeading], h, hsub.subset hh, rfl, rfl⟩

def wPagesC5 : List PdfPage :=
  [[Block.textBlock [[mkSpan "this prose line is quite long enough; it has 123 in it." 10 0 30]]]]

def wHeadingC5 : Heading :=
  { level := .H1, text := "Zq".data, page := 0, confidence := 1, bbox := none }

/-- Witness for C5: a concrete retained heading is emitted with page 1. -/
theorem emitted_page_one_based_witness :
    emitHeading wHeadingC5 ∈ filterHeadingsWithSubtext wPagesC5 [wHeadingC5] ∧
    (1 ≤ (emitHeading wHeadingC5).page ∧
      ∃ h ∈ [wHeadingC5], emitHeading wHeadingC5 = emitHeading h ∧
        (emitHeading wHeadingC5).page = h.page + 1) :=
  ⟨by decide,
   emitted_page_one_based wPagesC5 [wHeadingC5] (emitHeading wHeadingC5) (by decide)⟩

/-! ## Claim C3: retained iff has_children or has_content -/

/-- **C3.** A heading is kept in the filter's output iff `has_children`
or `has_content` holds for it (membership characterization over every
document and heading list); and in the concrete scenario document — an
"Appendix" line at 2× baseline followed within the lookahead window only
by another heading-pattern line ("References") and no prose, list or
image block, with no later heading of greater level — the final outline
of the whole pipeline is empty: the heading is dropped. -/
theorem heading_retained_iff_children_or_content :
    (∀ (pages : List PdfPage) (hs : List Heading) (o : OutHeading),
      o ∈ filterHeadingsWithSubtext pages hs ↔
        ∃ i h, hs.get? i = some h ∧
          (hasChildrenScan h (hs.drop (i + 1)) ||
            hasContentAfterHeading pages h (hs.drop (i + 1)).head?) = true ∧
          o = emitHeading h) ∧
    (processPdf (Except.ok scenDoc)).1.outline = [] :=
  ⟨filter_mem_iff_aux, by decide⟩

/-! ## Claim C10: the baseline is the earliest-first-occurring mode -/

/-- Index of the first occurrence of `a` (length of the list when `a` is
absent). -/
def firstIdx (a : Rat) : List Rat → Nat
  | [] => 0
  | x :: xs => if x = a then 0 else firstIdx a xs + 1

theorem firstIdx_append_not_mem (a : Rat) (pre rest : List Rat) (h : a ∉ pre) :
    firstIdx a (pre ++ rest) = pre.length + firstIdx a rest := by
  induction pre with
  | nil => simp
  | cons x xs ih =>
    have hx : x ≠ a := fun he => h (he ▸ List.mem_cons_self x xs)
    have hxs : a ∉ xs := fun hm => h (List.mem_cons_of_mem x hm)
    have hstep : firstIdx a ((x :: xs) ++ rest) =
        if x = a then 0 else firstIdx a (xs ++ rest) + 1 := rfl
    rw [hstep, if_neg hx, ih hxs, List.length_cons]
    omega

theorem pickBest_mem_max (l : List Rat) : ∀ (xs : List Rat) (cur : Rat),
    (pickBest l cur xs = cur ∨ pickBest l cur xs ∈ xs) ∧
    l.count cur ≤ l.count (pickBest l cur xs) ∧
    ∀ z ∈ xs, l.count z ≤ l.count (pickBest l cur xs) := by
  intro xs
  induction xs with
  | nil =>
    intro cur
    exact ⟨Or.inl rfl, le_refl _, by simp⟩
  | cons x xs ih =>
    intro cur
    unfold pickBest
    by_cases hc : l.count cur < l.count x
    · rw [if_pos hc]
      obtain ⟨hm, hcur, hall⟩ := ih x
      refine ⟨?_, le_trans (le_of_lt hc) hcur, ?_⟩
      · rcases hm with h | h
        · exact Or.inr (by rw [h]; exact List.mem_cons_self x xs)
        · exact Or.inr (List.mem_cons_of_mem x h)
      · intro z hz
        rcases List.mem_cons.mp hz with rfl | hz'
        · exact hcur
        · exact hall z hz'
    · rw [if_neg hc]
      obtain ⟨hm, hcur, hall⟩ := ih cur
      refine ⟨?_, hcur, ?_⟩
      · rcases hm with h | h
        · exact Or.inl h
        · exact Or.inr (List.mem_cons_of_mem x h)
      · intro z hz
        rcases List.mem_cons.mp hz with rfl | hz'
        · exact le_trans (le_of_not_lt hc) hcur
        · exact hall z hz'

theorem pickBest_decomp (l : List Rat) : ∀ (xs : List Rat) (cur : Rat),
    pickBest l cur xs = cur ∨
    ∃ pre post, xs = pre ++ pickBest l cur xs :: post ∧
      l.count cur < l.count (pickBest l cur xs) ∧
      ∀ z ∈ pre, l.count z < l.count (pickBest l cur xs) := by
  intro xs
  induction xs with
  | nil =>
    intro cur
    exact Or.inl rfl
  | cons x xs ih =>
    intro cur
    unfold pickBest
    by_cases hc : l.count cur < l.count x
    · rw [if_pos hc]
      rcases ih x with heq | ⟨pre, post, hx, hlt, hpre⟩
      · right
        exact ⟨[], xs, by simp [heq], by rw [heq]; exact hc, by simp⟩
      · right
        refine ⟨x :: pre, post, by rw [List.cons_append, ← hx], lt_trans hc hlt, ?_⟩
        intro z hz
        rcases List.mem_cons.mp hz with rfl | hz'
        · exact hlt
        · exact hpre z hz'
    · rw [if_neg hc]
      rcases ih cur with heq | ⟨pre, post, hx, hlt, hpre⟩
      · exact Or.inl heq
      · right
        refine ⟨x :: pre, post, by rw [List.cons_append, ← hx], hlt, ?_⟩
        intro z hz
        rcases List.mem_cons.mp hz with rfl | hz'
        · exact lt_of_le_of_lt (le_of_not_lt hc) hlt
        · exact hpre z hz'

/-- **C10.** The baseline is a deterministic function of the ordered span
sequence of the sampled prefix pages: with no non-empty span it falls back
to 12; otherwise it is a size of maximal frequency, and among the sizes
tied for most frequent it is the one whose first occurrence comes
earliest in span scan order (the insertion-order tie-break of
`Counter.most_common`). -/
theorem baseline_most_common (pages : List PdfPage) :
    (spanSizesForFonts pages = [] → analyzeDocumentFonts pages = 12) ∧
    (spanSizesForFonts pages ≠ [] →
      analyzeDocumentFonts pages ∈ spanSizesForFonts pages ∧
      (∀ s ∈ spanSizesForFonts pages,
        (spanSizesForFonts pages).count s ≤
          (spanSizesForFonts pages).count (analyzeDocumentFonts pages)) ∧
      (∀ s ∈ spanSizesForFonts pages,
        (spanSizesForFonts pages).count s =
          (spanSizesForFonts pages).count (analyzeDocumentFonts pages) →
        firstIdx (analyzeDocumentFonts pages) (spanSizesForFonts pages) ≤
          firstIdx s (spanSizesForFonts pages))) := by
  constructor
  · intro hl
    unfold analyzeDocumentFonts
    rw [hl]
    rfl
  · intro hne
    cases hl : spanSizesForFonts pages with
    | nil => exact absurd hl hne
    | cons x xs =>
      have hb : analyzeDocumentFonts pages = pickBest (x :: xs) x xs := by
        unfold analyzeDocumentFonts mostCommon1
        rw [hl]
        rfl
      rw [hb]
      obtain ⟨hmem, hcur, hall⟩ := pickBest_mem_max (x :: xs) xs x
      refine ⟨?_, ?_, ?_⟩
      · rcases hmem with h | h
        · rw [h]
          exact List.mem_cons_self x xs
        · exact List.mem_cons_of_mem x h
      · intro s hs
        rcases List.mem_cons.mp hs with rfl | hs'
        · exact hcur
        · exact hall s hs'
      · intro s hs htie
        rcases pickBest_decomp (x :: xs) xs x with heq | ⟨pre, post, hx, hlt, hpre⟩
        · rw [heq]
          simp [firstIdx]
        · set b := pickBest (x :: xs) x xs with hb
          have hdecomp : x :: xs = (x :: pre) ++ b :: post := by
            rw [hx]
            rfl
          have hprelt : ∀ z ∈ x :: pre, (x :: xs).count z < (x :: xs).count b := by
            intro z hz
            rcases List.mem_cons.mp hz with rfl | hz'
            · exact hlt
            · exact hpre z hz'
          have hbnot : b ∉ x :: pre := by
            intro hbm
            exact absurd (hprelt b hbm) (lt_irrefl _)
          have hsnot : s ∉ x :: pre := by
            intro hsm
            have := hprelt s hsm
            omega
          have h1 : firstIdx b (x :: xs) = (x :: pre).length := by
            rw [hdecomp, firstIdx_append_not_mem b (x :: pre) (b :: post) hbnot]
            simp [firstIdx]
          have h2 : (x :: pre).length ≤ firstIdx s (x :: xs) := by
            rw [hdecomp, firstIdx_append_not_mem s (x :: pre) (b :: post) hsnot]
            omega
          rw [h1]
          exact h2

def wPagesC10 : List PdfPage :=
  [[Block.textBlock [[mkSpan "aa" 10 0 0], [mkSpan "bb" 12 0 10],
    [mkSpan "cc" 10 0 20], [mkSpan "dd" 12 0 30]]]]

/-- Witness for C10: with counts tied between 10 and 12, the baseline is
10, whose first occurrence comes first in scan order. -/
theorem baseline_most_common_witness :
    spanSizesForFonts wPagesC10 ≠ [] ∧
    (analyzeDocumentFonts wPagesC10 ∈ spanSizesForFonts wPagesC10 ∧
      (∀ s ∈ spanSizesForFonts wPagesC10,
        (spanSizesForFonts wPagesC10).count s ≤
          (spanSizesForFonts wPagesC10).count (analyzeDocumentFonts wPagesC10)) ∧
      (∀ s ∈ spanSizesForFonts wPagesC10,
        (spanSizesForFonts wPagesC10).count s =
          (spanSizesForFonts wPagesC10).count (analyzeDocumentFonts wPagesC10) →
        firstIdx (analyzeDocumentFonts wPagesC10) (spanSizesForFonts wPagesC10) ≤
          firstIdx s (spanSizesForFonts wPagesC10))) ∧
    analyzeDocumentFonts wPagesC10 = 10 :=
  ⟨by decide, (baseline_most_common wPagesC10).2 (by decide), by decide⟩

/-! ## Deduplication and sorting: lemmas for C6 and C7 -/

theorem dedupAux_strong : ∀ (hs : List Heading) (seen : List (List Char × Nat)),
    (dedupAux seen hs).Pairwise (fun a b => hkey a ≠ hkey b) ∧
    ∀ h ∈ dedupAux seen hs, hkey h ∉ seen ∧ h ∈ hs := by
  intro hs
  induction hs with
  | nil =>
    intro seen
    simp [dedupAux]
  | cons h t ih =>
    intro seen
    unfold dedupAux
    by_cases hmem : hkey h ∈ seen
    · rw [if_pos hmem]
      obtain ⟨hp, hrest⟩ := ih seen
      exact ⟨hp, fun x hx => ⟨(hrest x hx).1, List.mem_cons_of_mem h (hrest x hx).2⟩⟩
    · rw [if_neg hmem]
      obtain ⟨hp, hrest⟩ := ih (hkey h :: seen)
      refine ⟨List.Pairwise.cons ?_ hp, ?_⟩
      · intro b hb
        have := (hrest b hb).1
        intro hkeq
        exact this (hkeq ▸ List.mem_cons_self (hkey h) seen)
      · intro x hx
        rcases List.mem_cons.mp hx with rfl | hx'
        · exact ⟨hmem, List.mem_cons_self x t⟩
        · refine ⟨fun hs' => (hrest x hx').1 (List.mem_cons_of_mem _ hs'), ?_⟩
          exact List.mem_cons_of_mem h (hrest x hx').2

/-- The dedup loop keeps, for every key, exactly the first entry carrying
that key (the `seen`-set accumulates the keys already emitted). -/
theorem dedupAux_filter_key (k : List Char × Nat) :
    ∀ (hs : List Heading) (seen : List (List Char × Nat)),
      (dedupAux seen hs).filter (fun h => decide (hkey h = k)) =
        if k ∈ seen then [] else (hs.filter (fun h => decide (hkey h = k))).take 1 := by
  intro hs
  induction hs with
  | nil =>
    intro seen
    by_cases hk : k ∈ seen <;> simp [dedupAux, hk]
  | cons h t ih =>
    intro seen
    unfold dedupAux
    by_cases hmem : hkey h ∈ seen
    · rw [if_pos hmem, ih seen]
      by_cases hk : k = hkey h
      · subst hk
        rw [if_pos hmem, if_pos hmem]
      · by_cases hks : k ∈ seen
        · rw [if_pos hks, if_pos hks]
        · rw [if_neg hks, if_neg hks,
            List.filter_cons_of_neg (by simpa using fun heq => hk heq.symm)]
    · rw [if_neg hmem]
      by_cases hk : k = hkey h
      · subst hk
        rw [List.filter_cons_of_pos (by simp), ih (hkey h :: seen),
          if_pos (List.mem_cons_self _ _), if_neg hmem,
          List.filter_cons_of_pos (by simp)]
        rfl
      · rw [List.filter_cons_of_neg (by simpa using fun heq => hk heq.symm),
          ih (hkey h :: seen), List.filter_cons_of_neg (by simpa using fun heq => hk heq.symm)]
        simp only [List.mem_cons, hk, false_or]

def dedupHeadings_eq : dedupHeadings = dedupAux [] := rfl

/-- Stable insertion produces a permutation of consing. -/
theorem sortedInsertBy_perm {α : Type} (lt : α → α → Bool) (x : α) :
    ∀ l : List α, (sortedInsertBy lt x l).Perm (x :: l) := by
  intro l
  induction l with
  | nil => exact List.Perm.refl _
  | cons y ys ih =>
    unfold sortedInsertBy
    by_cases hc : lt x y = true
    · rw [if_pos hc]
    · rw [if_neg hc]
      exact List.Perm.trans (List.Perm.cons y ih) (List.Perm.swap x y ys)

theorem insertionSortBy_perm {α : Type} (lt : α → α → Bool) :
    ∀ l : List α, (insertionSortBy lt l).Perm l := by
  intro l
  induction l with
  | nil => exact List.Perm.refl _
  | cons x xs ih =>
    exact List.Perm.trans (sortedInsertBy_perm lt x (insertionSortBy lt xs))
      (List.Perm.cons x ih)

/-- The weak order the heading sort establishes: ascending page, and
ascending vertical position within a page (a missing bbox counts as
position 0). -/
def headingKeyLe (a b : Heading) : Prop :=
  a.page < b.page ∨ (a.page = b.page ∧ sortY a ≤ sortY b)

theorem headingKeyLe_of_lt {a b : Heading} (h : headingKeyLt a b = true) :
    headingKeyLe a b := by
  unfold headingKeyLt at h
  simp only [Bool.or_eq_true, Bool.and_eq_true, decide_eq_true_eq, beq_iff_eq] at h
  rcases h with h | ⟨h1, h2⟩
  · exact Or.inl h
  · exact Or.inr ⟨h1, le_of_lt h2⟩

theorem headingKeyLe_of_not_lt {a b : Heading} (h : ¬ headingKeyLt a b = true) :
    headingKeyLe b a := by
  unfold headingKeyLt at h
  simp only [Bool.or_eq_true, Bool.and_eq_true, decide_eq_true_eq, beq_iff_eq, not_or,
    not_and] at h
  obtain ⟨h1, h2⟩ := h
  rcases lt_trichotomy a.page b.page with hp | hp | hp
  · exact absurd hp h1
  · exact Or.inr ⟨hp.symm, le_of_not_lt (fun hy => h2 hp hy)⟩
  · exact Or.inl hp

theorem headingKeyLe_trans {a b c : Heading} (h1 : headingKeyLe a b)
    (h2 : headingKeyLe b c) : headingKeyLe a c := by
  rcases h1 with h1 | ⟨h1, h1'⟩ <;> rcases h2 with h2 | ⟨h2, h2'⟩
  · exact Or.inl (lt_trans h1 h2)
  · exact Or.inl (h2 ▸ h1)
  · exact Or.inl (h1 ▸ h2)
  · exact Or.inr ⟨h1.trans h2, le_trans h1' h2'⟩

theorem sortedInsertBy_pairwise (x : Heading) :
    ∀ l : List Heading, l.Pairwise headingKeyLe →
      (sortedInsertBy headingKeyLt x l).Pairwise headingKeyLe := by
  intro l
  induction l with
  | nil =>
    intro _
    exact List.pairwise_singleton _ _
  | cons y ys ih =>
    intro hp
    unfold sortedInsertBy
    by_cases hc : headingKeyLt x y = true
    · rw [if_pos hc]
      refine List.Pairwise.cons ?_ hp
      intro z hz
      rcases List.mem_cons.mp hz with rfl | hz'
      · exact headingKeyLe_of_lt hc
      · exact headingKeyLe_trans (headingKeyLe_of_lt hc) (List.rel_of_pairwise_cons hp hz')
    · rw [if_neg hc]
      refine List.Pairwise.cons ?_ (ih hp.of_cons)
      intro z hz
      have hz2 := (sortedInsertBy_perm headingKeyLt x ys).mem_iff.mp hz
      rcases List.mem_cons.mp hz2 with rfl | hz'
      · exact headingKeyLe_of_not_lt hc
      · exact List.rel_of_pairwise_cons hp hz'

theorem insertionSortBy_pairwise :
    ∀ l : List Heading, (insertionSortBy headingKeyLt l).Pairwise headingKeyLe := by
  intro l
  induction l with
  | nil => exact List.Pairwise.nil
  | cons x xs ih => exact sortedInsertBy_pairwise x _ ih

theorem postProcess_sorted (hs : List Heading) :
    (postProcessHeadings hs).Pairwise headingKeyLe := by
  unfold postProcessHeadings
  split
  · rename_i he
    rw [List.isEmpty_iff.mp he]
    exact List.Pairwise.nil
  · exact insertionSortBy_pairwise _

theorem postProcess_pairwise_keys (hs : List Heading) :
    (postProcessHeadings hs).Pairwise (fun a b => hkey a ≠ hkey b) := by
  unfold postProcessHeadings
  split
  · rename_i he
    rw [List.isEmpty_iff.mp he]
    exact List.Pairwise.nil
  · exact (List.Perm.pairwise_iff (fun hne he => hne he.symm)
      (insertionSortBy_perm headingKeyLt (dedupHeadings hs))).mpr (dedupAux_strong hs []).1

/-! ## Claim C6: no duplicate (text, page) pairs in the final outline -/

/-- **C6.** In the final outline of any document no two entries share an
identical (text, page) pair; and the deduplication step keeps, for every
key, exactly the first entry with that key (for every key `k`, filtering
the dedup output down to `k` yields the first `k`-keyed input entry). -/
theorem outline_no_duplicate_pairs (pages : List PdfPage) (baseline : Rat)
    (extractedTitle : List Char) :
    (extractOutlineEnhanced pages baseline extractedTitle).Pairwise
      (fun a b => ¬(a.text = b.text ∧ a.page = b.page)) ∧
    ∀ (hs : List Heading) (k : List Char × Nat),
      (dedupHeadings hs).filter (fun h => decide (hkey h = k)) =
        (hs.filter (fun h => decide (hkey h = k))).take 1 := by
  constructor
  · obtain ⟨sub, hsub, heq⟩ := filter_sublist_emit pages
      (postProcessHeadings (collectHeadings pages baseline
        (calculateSizeThresholds baseline) extractedTitle))
    have hout : extractOutlineEnhanced pages baseline extractedTitle =
        sub.map emitHeading := heq
    rw [hout]
    have hpw : sub.Pairwise (fun a b => hkey a ≠ hkey b) :=
      (postProcess_pairwise_keys _).sublist hsub
    rw [List.pairwise_map]
    refine hpw.imp ?_
    intro a b hne hcon
    apply hne
    unfold hkey
    obtain ⟨ht, hp⟩ := hcon
    simp only [emitHeading] at ht hp
    rw [ht]
    simp only [Prod.mk.injEq, true_and]
    omega
  · intro hs k
    have h := dedupAux_filter_key k hs []
    simpa using h

/-! ## Claim C7: ordering of the final outline -/

/-- **C7.** The deduplicated list is sorted non-decreasingly by page and,
within equal pages, non-decreasingly by vertical bbox position (a missing
bbox sorting as position 0); the content-presence filter preserves this
order — the final outline is the emission of a sublist of that sorted
list, and is itself non-decreasing in page number. -/
theorem outline_ordering (pages : List PdfPage) (baseline : Rat)
    (extractedTitle : List Char) (hs : List Heading) :
    (postProcessHeadings hs).Pairwise headingKeyLe ∧
    (∃ sub : List Heading,
      sub.Sublist (postProcessHeadings (collectHeadings pages baseline
        (calculateSizeThresholds baseline) extractedTitle)) ∧
      sub.Pairwise headingKeyLe ∧
      extractOutlineEnhanced pages baseline extractedTitle = sub.map emitHeading) ∧
    (extractOutlineEnhanced pages baseline extractedTitle).Pairwise
      (fun a b => a.page ≤ b.page) := by
  obtain ⟨sub, hsub, heq⟩ := filter_sublist_emit pages
    (postProcessHeadings (collectHeadings pages baseline
      (calculateSizeThresholds baseline) extractedTitle))
  have hpw : sub.Pairwise headingKeyLe := (postProcess_sorted _).sublist hsub
  refine ⟨postProcess_sorted hs, ⟨sub, hsub, hpw, heq⟩, ?_⟩
  have hout : extractOutlineEnhanced pages baseline extractedTitle =
      sub.map emitHeading := heq
  rw [hout, List.pairwise_map]
  refine hpw.imp ?_
  intro a b hle
  simp only [emitHeading]
  rcases hle with h | ⟨h, _⟩
  · omega
  · omega

/-! ## Claim C8: normalization of the retained heading texts

Lemma stack about `pyStrip`, `collapseWs` and `cleanText`. -/

/-- All whitespace present is a single ASCII space and never two adjacent
whitespace characters (the shape of `collapseWs` output). -/
def spacesSingle : List Char → Bool
  | [] => true
  | [c] => !(isPySpace c) || c == ' '
  | c :: d :: t => ((!(isPySpace c)) || (c == ' ' && !(isPySpace d))) && spacesSingle (d :: t)

/-- No control character (of the class `_clean_text` strips) occurs. -/
def NoCtrl (s : List Char) : Prop := ∀ c ∈ s, isCtrlChar c = false

def headNonSpace (s : List Char) : Prop :=
  ∀ c, s.head? = some c → isPySpace c = false

def lastNonSpace (s : List Char) : Prop :=
  ∀ c, s.getLast? = some c → isPySpace c = false

/-- The invariant carried by every heading text the pipeline builds:
nonempty, trimmed, single internal spaces, control-free. -/
def StrongNorm (s : List Char) : Prop :=
  s ≠ [] ∧ headNonSpace s ∧ lastNonSpace s ∧ spacesSingle s = true ∧ NoCtrl s

theorem isPySpace_pyLower (c : Char) : isPySpace (pyLower c) = isPySpace c := by
  unfold pyLower
  split
  · rename_i h
    have hvalid : (c.toNat + 32).isValidChar := Or.inl (by omega)
    have hv : (Char.ofNat (c.toNat + 32)).toNat = c.toNat + 32 := by
      rw [Char.ofNat, dif_pos hvalid]
      rfl
    have hA : isPySpace (Char.ofNat (c.toNat + 32)) = false := by
      simp only [isPySpace, hv, decide_eq_false_iff_not]
      omega
    have hB : isPySpace c = false := by
      simp only [isPySpace, decide_eq_false_iff_not]
      omega
    rw [hA, hB]
  · rfl

theorem space_not_ctrl : isCtrlChar ' ' = false := by decide

theorem head?_dropWhile_space {l : List Char} :
    ∀ c, (l.dropWhile isPySpace).head? = some c → isPySpace c = false := by
  induction l with
  | nil => intro c hc; simp [List.dropWhile] at hc
  | cons x xs ih =>
    intro c hc
    by_cases hx : isPySpace x
    · rw [List.dropWhile_cons_of_pos hx] at hc
      exact ih c hc
    · rw [List.dropWhile_cons_of_neg hx] at hc
      simp only [List.head?_cons, Option.some.injEq] at hc
      rw [← hc]
      exact Bool.not_eq_true _ ▸ hx

theorem dropWhile_eq_self_of_headNonSpace {l : List Char} (h : headNonSpace l) :
    l.dropWhile isPySpace = l := by
  cases l with
  | nil => rfl
  | cons c t =>
    have := h c rfl
    rw [List.dropWhile_cons_of_neg (by rw [this]; exact Bool.false_ne_true)]

theorem pyStrip_headNonSpace (s : List Char) : headNonSpace (pyStrip s) := by
  intro c hc
  unfold pyStrip at hc
  set u := s.dropWhile isPySpace with hu
  have hpre : u.reverse.dropWhile isPySpace <:+ u.reverse := List.dropWhile_suffix _
  have hpre2 : (u.reverse.dropWhile isPySpace).reverse <+: u.reverse.reverse :=
    List.reverse_prefix.mpr hpre
  rw [List.reverse_reverse] at hpre2
  obtain ⟨t, ht⟩ := hpre2
  cases hrev : (u.reverse.dropWhile isPySpace).reverse with
  | nil => rw [hrev] at hc; simp at hc
  | cons d ds =>
    rw [hrev] at hc ht
    simp only [List.head?_cons, Option.some.injEq] at hc
    have hhu : u.head? = some d := by
      rw [← ht]
      rfl
    rw [← hc]
    exact head?_dropWhile_space d hhu

theorem pyStrip_lastNonSpace (s : List Char) : lastNonSpace (pyStrip s) := by
  intro c hc
  unfold pyStrip at hc
  rw [List.getLast?_reverse] at hc
  exact head?_dropWhile_space c hc

theorem pyStrip_eq_self {s : List Char} (h1 : headNonSpace s) (h2 : lastNonSpace s) :
    pyStrip s = s := by
  unfold pyStrip
  rw [dropWhile_eq_self_of_headNonSpace h1]
  have hrev : headNonSpace s.reverse := by
    intro c hc
    rw [List.head?_reverse] at hc
    exact h2 c hc
  rw [dropWhile_eq_self_of_headNonSpace hrev, List.reverse_reverse]

theorem pyStrip_idem (s : List Char) : pyStrip (pyStrip s) = pyStrip s :=
  pyStrip_eq_self (pyStrip_headNonSpace s) (pyStrip_lastNonSpace s)

theorem pyStrip_subset (s : List Char) : ∀ c ∈ pyStrip s, c ∈ s := by
  intro c hc
  unfold pyStrip at hc
  rw [List.mem_reverse] at hc
  have h1 := (List.dropWhile_suffix isPySpace).subset hc
  rw [List.mem_reverse] at h1
  exact (List.dropWhile_suffix isPySpace).subset h1

theorem pyStrip_NoCtrl {s : List Char} (h : NoCtrl s) : NoCtrl (pyStrip s) :=
  fun c hc => h c (pyStrip_subset s c hc)

theorem collapseGo_subset : ∀ (l : List Char) (flag : Bool),
    ∀ c ∈ collapseGo flag l, c ∈ l ∨ c = ' ' := by
  intro l
  induction l with
  | nil => intro flag c hc; simp [collapseGo] at hc
  | cons x xs ih =>
    intro flag c hc
    unfold collapseGo at hc
    by_cases hx : isPySpace x
    · rw [if_pos hx] at hc
      cases flag with
      | true =>
        rcases ih true c hc with h | h
        · exact Or.inl (List.mem_cons_of_mem x h)
        · exact Or.inr h
      | false =>
        rcases List.mem_cons.mp hc with rfl | hc'
        · exact Or.inr rfl
        · rcases ih true c hc' with h | h
          · exact Or.inl (List.mem_cons_of_mem x h)
          · exact Or.inr h
    · rw [if_neg hx] at hc
      rcases List.mem_cons.mp hc with rfl | hc'
      · exact Or.inl (List.mem_cons_self c xs)
      · rcases ih false c hc' with h | h
        · exact Or.inl (List.mem_cons_of_mem x h)
        · exact Or.inr h

theorem collapseGo_NoCtrl {l : List Char} (h : NoCtrl l) (flag : Bool) :
    NoCtrl (collapseGo flag l) := by
  intro c hc
  rcases collapseGo_subset l flag c hc with hm | rfl
  · exact h c hm
  · exact space_not_ctrl

/-- `collapseGo true` never emits a leading space. -/
theorem collapseGo_true_head : ∀ (l : List Char),
    ∀ c, (collapseGo true l).head? = some c → isPySpace c = false := by
  intro l
  induction l with
  | nil => intro c hc; simp [collapseGo] at hc
  | cons x xs ih =>
    intro c hc
    unfold collapseGo at hc
    by_cases hx : isPySpace x
    · rw [if_pos hx, if_pos rfl] at hc
      exact ih c hc
    · rw [if_neg hx] at hc
      simp only [List.head?_cons, Option.some.injEq] at hc
      rw [← hc]
      exact Bool.not_eq_true _ ▸ hx

/-- The flag is irrelevant when the input does not start with whitespace. -/
theorem collapseGo_flag_irrel {l : List Char} (h : headNonSpace l) :
    collapseGo true l = collapseGo false l := by
  cases l with
  | nil => rfl
  | cons c t =>
    have hc := h c rfl
    unfold collapseGo
    rw [if_neg (by rw [hc]; exact Bool.false_ne_true),
      if_neg (by rw [hc]; exact Bool.false_ne_true)]

theorem collapseGo_lastNonSpace : ∀ (l : List Char) (flag : Bool), l ≠ [] →
    lastNonSpace l → collapseGo flag l ≠ [] ∧ lastNonSpace (collapseGo flag l) := by
  intro l
  induction l with
  | nil => intro flag h; exact absurd rfl h
  | cons x xs ih =>
    intro flag _ hlast
    cases hxs : xs with
    | nil =>
      subst hxs
      have hx : isPySpace x = false := hlast x rfl
      unfold collapseGo
      rw [if_neg (by rw [hx]; exact Bool.false_ne_true)]
      refine ⟨by simp, ?_⟩
      intro c hc
      simp only [collapseGo, List.getLast?_singleton, Option.some.injEq] at hc
      rw [← hc]
      exact hx
    | cons y ys =>
      subst hxs
      have hlast' : lastNonSpace (y :: ys) := by
        intro c hc
        exact hlast c (by rw [List.getLast?_cons_cons]; exact hc)
      obtain ⟨hne', hl'⟩ := ih flag (by simp) hlast'
      have step : ∀ fl : Bool, collapseGo fl (y :: ys) ≠ [] →
          lastNonSpace (collapseGo fl (y :: ys)) →
          ∀ a, (a :: collapseGo fl (y :: ys)) ≠ [] ∧
            lastNonSpace (a :: collapseGo fl (y :: ys)) := by
        intro fl hne hl a
        refine ⟨by simp, ?_⟩
        intro c hc
        cases hcg : collapseGo fl (y :: ys) with
        | nil => exact absurd hcg hne
        | cons b bs =>
          rw [hcg, List.getLast?_cons_cons] at hc
          apply hl
          rw [hcg]
          exact hc
      obtain ⟨hneT, hlT⟩ := ih true (by simp) hlast'
      obtain ⟨hneF, hlF⟩ := ih false (by simp) hlast'
      unfold collapseGo
      by_cases hx : isPySpace x
      · rw [if_pos hx]
        cases flag with
        | true => exact ⟨hneT, hlT⟩
        | false =>
          simp only [Bool.false_eq_true, if_false]
          exact step true hneT hlT ' '
      · rw [if_neg hx]
        exact step false hneF hlF x

theorem spacesSingle_cons_tail {c : Char} {t : List Char}
    (h : spacesSingle (c :: t) = true) : spacesSingle t = true := by
  cases t with
  | nil => rfl
  | cons d t' =>
    unfold spacesSingle at h
    rw [Bool.and_eq_true] at h
    exact h.2

theorem collapseGo_spacesSingle : ∀ (l : List Char) (flag : Bool),
    spacesSingle (collapseGo flag l) = true := by
  intro l
  induction l with
  | nil => intro flag; rfl
  | cons x xs ih =>
    intro flag
    unfold collapseGo
    by_cases hx : isPySpace x
    · rw [if_pos hx]
      cases flag with
      | true => exact ih true
      | false =>
        simp only [Bool.false_eq_true, if_false]
        cases hcg : collapseGo true xs with
        | nil => rfl
        | cons d ds =>
          have hd : isPySpace d = false :=
            collapseGo_true_head xs d (by rw [hcg]; rfl)
          unfold spacesSingle
          rw [Bool.and_eq_true]
          constructor
          · simp [hd]
          · rw [← hcg]
            exact ih true
    · rw [if_neg hx]
      cases hcg : collapseGo false xs with
      | nil =>
        unfold spacesSingle
        simp [hx]
      | cons d ds =>
        unfold spacesSingle
        rw [Bool.and_eq_true]
        constructor
        · simp [hx]
        · rw [← hcg]
          exact ih false

theorem collapseGo_id {l : List Char} (h : spacesSingle l = true) :
    collapseGo false l = l := by
  induction l with
  | nil => rfl
  | cons x xs ih =>
    unfold collapseGo
    by_cases hx : isPySpace x
    · rw [if_pos hx]
      simp only [Bool.false_eq_true, if_false]
      have hx' : x = ' ' := by
        cases xs with
        | nil =>
          unfold spacesSingle at h
          simp only [Bool.or_eq_true, Bool.not_eq_true', beq_iff_eq] at h
          rcases h with h | h
          · rw [h] at hx; exact absurd hx (by simp)
          · exact h
        | cons y ys =>
          unfold spacesSingle at h
          rw [Bool.and_eq_true] at h
          have h1 := h.1
          rw [Bool.or_eq_true] at h1
          rcases h1 with h1 | h1
          · rw [Bool.not_eq_true'] at h1
            rw [h1] at hx
            exact absurd hx (by simp)
          · rw [Bool.and_eq_true] at h1
            exact beq_iff_eq.mp h1.1
      have hxs_head : headNonSpace xs := by
        intro c hc
        cases xs with
        | nil => simp at hc
        | cons y ys =>
          simp only [List.head?_cons, Option.some.injEq] at hc
          unfold spacesSingle at h
          rw [Bool.and_eq_true] at h
          have h1 := h.1
          rw [Bool.or_eq_true] at h1
          rcases h1 with h1 | h1
          · rw [Bool.not_eq_true'] at h1
            rw [h1] at hx
            exact absurd hx (by simp)
          · rw [Bool.and_eq_true] at h1
            have h2 := h1.2
            rw [Bool.not_eq_true'] at h2
            rw [← hc]
            exact h2
      rw [collapseGo_flag_irrel hxs_head, ih (spacesSingle_cons_tail h), hx']
    · rw [if_neg hx, ih (spacesSingle_cons_tail h)]

theorem collapseGo_cons (flag : Bool) (c : Char) (t : List Char) :
    collapseGo flag (c :: t) =
      if isPySpace c then
        (if flag then collapseGo true t else ' ' :: collapseGo true t)
      else c :: collapseGo false t := rfl

theorem filter_ctrl_id {s : List Char} (h : NoCtrl s) :
    s.filter (fun c => !(isCtrlChar c)) = s := by
  apply List.filter_eq_self.mpr
  intro a ha
  rw [h a ha]
  rfl

theorem cleanText_of_NoCtrl {s : List Char} (h : NoCtrl s) :
    cleanText s = collapseWs (pyStrip s) := by
  unfold cleanText
  exact filter_ctrl_id (collapseGo_NoCtrl (pyStrip_NoCtrl h) false)

/-- On control-free input with a nonempty trim, `cleanText` produces a
`StrongNorm` string. -/
theorem cleanText_StrongNorm {s : List Char} (h : NoCtrl s) (hne : pyStrip s ≠ []) :
    StrongNorm (cleanText s) := by
  rw [cleanText_of_NoCtrl h]
  cases hstr : pyStrip s with
  | nil => exact absurd hstr hne
  | cons c t =>
    have hhead : isPySpace c = false := pyStrip_headNonSpace s c (by rw [hstr]; rfl)
    have hlast : lastNonSpace (c :: t) := by
      intro d hd
      exact pyStrip_lastNonSpace s d (by rw [hstr]; exact hd)
    have hcw : collapseWs (c :: t) = c :: collapseGo false t := by
      unfold collapseWs
      rw [collapseGo_cons, if_neg (by rw [hhead]; exact Bool.false_ne_true)]
    obtain ⟨hne', hlast'⟩ := collapseGo_lastNonSpace (c :: t) false (by simp) hlast
    refine ⟨?_, ?_, ?_, ?_, ?_⟩
    · rw [hcw]
      simp
    · intro d hd
      rw [hcw] at hd
      simp only [List.head?_cons, Option.some.injEq] at hd
      rw [← hd]
      exact hhead
    · exact hlast'
    · exact collapseGo_spacesSingle (c :: t) false
    · apply collapseGo_NoCtrl
      rw [← hstr]
      exact pyStrip_NoCtrl h

/-- A `StrongNorm` string is a fixed point of the normalizer. -/
theorem cleanText_fixed {s : List Char} (h : StrongNorm s) : cleanText s = s := by
  obtain ⟨hne, hhead, hlast, hss, hnc⟩ := h
  rw [cleanText_of_NoCtrl hnc, pyStrip_eq_self hhead hlast]
  exact collapseGo_id hss

/-! Append lemmas for the "syllabus" merge. -/

theorem spacesSingle_of_spaceFree {s : List Char} (h : ∀ c ∈ s, isPySpace c = false) :
    spacesSingle s = true := by
  induction s with
  | nil => rfl
  | cons c t ih =>
    have hc := h c (List.mem_cons_self c t)
    cases t with
    | nil =>
      unfold spacesSingle
      simp [hc]
    | cons d t' =>
      unfold spacesSingle
      rw [Bool.and_eq_true]
      exact ⟨by simp [hc], ih (fun x hx => h x (List.mem_cons_of_mem c hx))⟩

theorem spacesSingle_append_space {t s : List Char} (ht : spacesSingle t = true)
    (htl : lastNonSpace t) (htne : t ≠ []) (hs : ∀ c ∈ s, isPySpace c = false)
    (hsne : s ≠ []) : spacesSingle (t ++ ' ' :: s) = true := by
  induction t with
  | nil => exact absurd rfl htne
  | cons a t' ih =>
    cases ht' : t' with
    | nil =>
      subst ht'
      have ha : isPySpace a = false := htl a rfl
      cases s with
      | nil => exact absurd rfl hsne
      | cons d s' =>
        show spacesSingle (a :: ' ' :: d :: s') = true
        unfold spacesSingle
        rw [Bool.and_eq_true]
        refine ⟨by simp [ha], ?_⟩
        unfold spacesSingle
        rw [Bool.and_eq_true]
        refine ⟨?_, spacesSingle_of_spaceFree hs⟩
        have hd : isPySpace d = false := hs d (List.mem_cons_self d s')
        simp [hd]
    | cons b t'' =>
      subst ht'
      have htl' : lastNonSpace (b :: t'') := by
        intro c hc
        exact htl c (by rw [List.getLast?_cons_cons]; exact hc)
      have hss' : spacesSingle (b :: t'') = true := spacesSingle_cons_tail ht
      have hstep := ih hss' htl' (by simp)
      have hpair : ((!(isPySpace a)) || (a == ' ' && !(isPySpace b))) = true := by
        unfold spacesSingle at ht
        rw [Bool.and_eq_true] at ht
        exact ht.1
      show spacesSingle ((a :: b :: t'') ++ ' ' :: s) = true
      rw [List.cons_append, List.cons_append]
      unfold spacesSingle
      rw [Bool.and_eq_true]
      refine ⟨hpair, ?_⟩
      rw [List.cons_append] at hstep
      exact hstep

theorem StrongNorm_append_space {t s : List Char} (ht : StrongNorm t)
    (hs : ∀ c ∈ s, isPySpace c = false) (hsnc : NoCtrl s) (hsne : s ≠ []) :
    StrongNorm (t ++ ' ' :: s) := by
  obtain ⟨htne, hthead, htlast, htss, htnc⟩ := ht
  refine ⟨by simp, ?_, ?_, ?_, ?_⟩
  · intro c hc
    cases t with
    | nil => exact absurd rfl htne
    | cons a t' =>
      rw [List.cons_append, List.head?_cons, Option.some.injEq] at hc
      rw [← hc]
      exact hthead a rfl
  · intro c hc
    rw [List.getLast?_append] at hc
    cases s with
    | nil => exact absurd rfl hsne
    | cons d s' =>
      have hgl : (' ' :: d :: s').getLast? = (d :: s').getLast? := List.getLast?_cons_cons
      rw [hgl] at hc
      cases hgl2 : (d :: s').getLast? with
      | none => simp at hgl2
      | some e =>
        rw [hgl2] at hc
        simp only [Option.or_some, Option.some.injEq] at hc
        rw [← hc]
        have he : e ∈ d :: s' := List.mem_of_getLast?_eq_some hgl2
        exact hs e he
  · exact spacesSingle_append_space htss htlast htne hs hsne
  · intro c hc
    rcases List.mem_append.mp hc with hm | hm
    · exact htnc c hm
    · rcases List.mem_cons.mp hm with rfl | hm'
      · exact space_not_ctrl
      · exact hsnc c hm'

/-! Propagation of the normalization invariant through the pipeline. -/

theorem analyzeLineStep_text (acc : LineAcc) (sp : Span) :
    (analyzeLineStep acc sp).text =
      if (pyStrip sp.text).isEmpty then acc.text
      else acc.text ++ pyStrip sp.text ++ [' '] := by
  unfold analyzeLineStep
  by_cases hE : (pyStrip sp.text).isEmpty
  · simp [hE]
  · simp [hE]

theorem analyzeLineFold_NoCtrl : ∀ (spans : List Span) (acc : LineAcc),
    NoCtrl acc.text → (∀ sp ∈ spans, NoCtrl sp.text) →
    NoCtrl (spans.foldl analyzeLineStep acc).text := by
  intro spans
  induction spans with
  | nil => intro acc h _; exact h
  | cons sp rest ih =>
    intro acc hacc hsp
    rw [List.foldl_cons]
    apply ih
    · intro c hc
      rw [analyzeLineStep_text] at hc
      by_cases hE : (pyStrip sp.text).isEmpty
      · rw [if_pos hE] at hc
        exact hacc c hc
      · rw [if_neg hE] at hc
        rcases List.mem_append.mp hc with hm | hm
        · rcases List.mem_append.mp hm with hm2 | hm2
          · exact hacc c hm2
          · exact pyStrip_NoCtrl (hsp sp (List.mem_cons_self sp rest)) c hm2
        · rcases List.mem_cons.mp hm with rfl | hm2
          · exact space_not_ctrl
          · simp at hm2
    · intro sp' h'
      exact hsp sp' (List.mem_cons_of_mem sp h')

theorem analyzeLine_props {baseline : Rat} {spans : List Span} {ld : LineData}
    (hnc : ∀ sp ∈ spans, NoCtrl sp.text)
    (h : analyzeLine baseline spans = some ld) :
    pyStrip ld.text = ld.text ∧ 2 ≤ ld.text.length ∧ NoCtrl ld.text := by
  unfold analyzeLine at h
  dsimp only at h
  split at h
  · exact absurd h (by simp)
  · rename_i hlen
    have hld := Option.some.inj h
    subst hld
    refine ⟨pyStrip_idem _, Nat.le_of_not_lt hlen, ?_⟩
    apply pyStrip_NoCtrl
    exact analyzeLineFold_NoCtrl spans _ (fun c hc => absurd hc (List.not_mem_nil c)) hnc

theorem syllabus_facts {s : List Char} (hstrip : pyStrip s = s)
    (hsyl : pyStrip (toLowerL s) = "syllabus".data) :
    (∀ c ∈ s, isPySpace c = false) ∧ s ≠ [] := by
  have hlow_head : headNonSpace (toLowerL s) := by
    intro c hc
    unfold toLowerL at hc
    rw [List.head?_map] at hc
    cases hh : s.head? with
    | none => rw [hh] at hc; simp at hc
    | some d =>
      rw [hh] at hc
      simp only [Option.map_some', Option.some.injEq] at hc
      rw [← hc, isPySpace_pyLower]
      have hhn := pyStrip_headNonSpace s
      rw [hstrip] at hhn
      exact hhn d hh
  have hlow_last : lastNonSpace (toLowerL s) := by
    intro c hc
    unfold toLowerL at hc
    rw [List.getLast?_map] at hc
    cases hh : s.getLast? with
    | none => rw [hh] at hc; simp at hc
    | some d =>
      rw [hh] at hc
      simp only [Option.map_some', Option.some.injEq] at hc
      rw [← hc, isPySpace_pyLower]
      have hln := pyStrip_lastNonSpace s
      rw [hstrip] at hln
      exact hln d hh
  have hlow_eq : toLowerL s = "syllabus".data := by
    rw [← hsyl, pyStrip_eq_self hlow_head hlow_last]
  constructor
  · intro c hc
    have hm : pyLower c ∈ toLowerL s := List.mem_map_of_mem pyLower hc
    rw [hlow_eq] at hm
    rw [← isPySpace_pyLower c]
    have hsylchars : ∀ x ∈ ("syllabus".data), isPySpace x = false := by decide
    exact hsylchars _ hm
  · intro hnil
    rw [hnil] at hlow_eq
    simp [toLowerL] at hlow_eq

theorem pageHeadingStep_preserves {baseline : Rat} {th : Thresholds}
    {extractedTitle : List Char} {pageNum : Nat} {acc : List Heading} {spans : List Span}
    (hacc : ∀ h ∈ acc, StrongNorm h.text) (hsp : ∀ sp ∈ spans, NoCtrl sp.text) :
    ∀ h ∈ pageHeadingStep baseline th extractedTitle pageNum acc spans,
      StrongNorm h.text := by
  intro h hmem
  unfold pageHeadingStep at hmem
  cases hal : analyzeLine baseline spans with
  | none => rw [hal] at hmem; exact hacc h hmem
  | some ld =>
    rw [hal] at hmem
    dsimp only at hmem
    obtain ⟨hstrip, hlen, hnc⟩ := analyzeLine_props hsp hal
    have hldne : ld.text ≠ [] := by
      intro he
      rw [he] at hlen
      simp at hlen
    have hmk : StrongNorm (cleanText ld.text) := by
      apply cleanText_StrongNorm hnc
      rw [hstrip]
      exact hldne
    split at hmem
    · exact hacc h hmem
    · split at hmem
      · exact hacc h hmem
      · split at hmem
        · -- candidate: match on the accumulator
          rename_i hcand
          cases acc with
          | nil =>
            dsimp only at hmem
            simp only [List.mem_singleton] at hmem
            subst hmem
            exact hmk
          | cons prev rest =>
            dsimp only at hmem
            split at hmem
            · -- syllabus merge
              rename_i hsylcond
              rcases List.mem_cons.mp hmem with rfl | hm
              · simp only
                obtain ⟨hsf, hsne⟩ := syllabus_facts hstrip hsylcond
                have hsnc := hnc
                have happ : prev.text ++ [' '] ++ ld.text =
                    prev.text ++ ' ' :: ld.text := by
                  rw [List.append_assoc]
                  rfl
                rw [happ]
                exact StrongNorm_append_space
                  (hacc prev (List.mem_cons_self prev rest)) hsf hsnc hsne
              · exact hacc h (List.mem_cons_of_mem prev hm)
            · rcases List.mem_cons.mp hmem with rfl | hm
              · exact hmk
              · exact hacc h hm
        · exact hacc h hmem

theorem foldl_pageHeadingStep_preserves {baseline : Rat} {th : Thresholds}
    {extractedTitle : List Char} {pageNum : Nat} :
    ∀ (lines : List (List Span)) (acc : List Heading),
      (∀ h ∈ acc, StrongNorm h.text) →
      (∀ line ∈ lines, ∀ sp ∈ line, NoCtrl sp.text) →
      ∀ h ∈ lines.foldl (pageHeadingStep baseline th extractedTitle pageNum) acc,
        StrongNorm h.text := by
  intro lines
  induction lines with
  | nil => intro acc hacc _; exact hacc
  | cons line rest ih =>
    intro acc hacc hlines
    rw [List.foldl_cons]
    apply ih
    · exact pageHeadingStep_preserves hacc
        (hlines line (List.mem_cons_self line rest))
    · intro line' h'
      exact hlines line' (List.mem_cons_of_mem line h')

/-- Hypothesis of the amended C8: no span text contains a stripped
control character. -/
def SpansNoCtrl (pages : List PdfPage) : Prop :=
  ∀ page ∈ pages, ∀ bl ∈ page, ∀ line ∈ blockLines bl, ∀ sp ∈ line, ∀ c ∈ sp.text,
    isCtrlChar c = false

theorem extractPageHeadings_StrongNorm {baseline : Rat} {th : Thresholds}
    {extractedTitle : List Char} {pageNum : Nat} {page : PdfPage}
    (hnc : ∀ bl ∈ page, ∀ line ∈ blockLines bl, ∀ sp ∈ line, ∀ c ∈ sp.text,
      isCtrlChar c = false) :
    ∀ h ∈ extractPageHeadings baseline th extractedTitle pageNum page,
      StrongNorm h.text := by
  intro h hmem
  unfold extractPageHeadings at hmem
  rw [List.mem_reverse] at hmem
  refine foldl_pageHeadingStep_preserves _ [] (by simp) ?_ h hmem
  intro line hline sp hsp c hc
  rw [List.mem_flatMap] at hline
  obtain ⟨bl, hbl, hlbl⟩ := hline
  exact hnc bl hbl line hlbl sp hsp c hc

theorem collectHeadings_StrongNorm {pages : List PdfPage} {baseline : Rat}
    {th : Thresholds} {extractedTitle : List Char} (hnc : SpansNoCtrl pages) :
    ∀ h ∈ collectHeadings pages baseline th extractedTitle, StrongNorm h.text := by
  intro h hmem
  unfold collectHeadings at hmem
  rw [List.mem_flatMap] at hmem
  obtain ⟨p, hp, hph⟩ := hmem
  have hpg : p.2 ∈ pages := by
    have h2 := List.mem_enum_iff_getElem?.mp hp
    exact List.getElem?_mem h2
  exact extractPageHeadings_StrongNorm (hnc p.2 hpg) h hph

theorem postProcess_subset (hs : List Heading) :
    ∀ h ∈ postProcessHeadings hs, h ∈ hs := by
  intro h hmem
  unfold postProcessHeadings at hmem
  split at hmem
  · exact hmem
  · have hd := (insertionSortBy_perm headingKeyLt (dedupHeadings hs)).mem_iff.mp hmem
    exact ((dedupAux_strong hs []).2 h hd).2

/-- **C8 (counterexample).** On a document whose heading line is
"ab \x01 cd" (a control character between two spaces), `_clean_text`
collapses whitespace *before* stripping the control character, so the
retained heading's text in the final output is "ab  cd" — which contains
a double space and is not a fixed point of the TextNormalizer. -/
theorem retained_text_normalized_counterexample :
    (processPdf (Except.ok ctrlDoc)).1.outline.map OutHeading.text = ["ab  cd".data] ∧
    cleanText ("ab  cd".data) ≠ "ab  cd".data := by decide

/-- **C8 (amended).** Every retained heading's text is the result of
applying the TextNormalizer once to its (possibly "syllabus"-merged) raw
line text; because control characters are removed only after whitespace
collapsing, the fixed-point property holds provided the document's span
texts contain no stripped control character: for every such document,
every heading of the final output has text invariant under the
TextNormalizer (including syllabus-merged headings). -/
theorem retained_text_normalized (d : PdfDoc) (hnc : SpansNoCtrl d.pages) :
    ∀ o ∈ (processPdf (Except.ok d)).1.outline, cleanText o.text = o.text := by
  intro o ho
  have ho' : o ∈ extractOutlineEnhanced d.pages (analyzeDocumentFonts d.pages)
      (pyStrip (toLowerL (extractTitleEnhanced d (analyzeDocumentFonts d.pages)))) := ho
  unfold extractOutlineEnhanced at ho'
  dsimp only at ho'
  obtain ⟨sub, hsub, heq⟩ := filter_sublist_emit d.pages
    (postProcessHeadings (collectHeadings d.pages (analyzeDocumentFonts d.pages)
      (calculateSizeThresholds (analyzeDocumentFonts d.pages))
      (pyStrip (toLowerL (extractTitleEnhanced d (analyzeDocumentFonts d.pages))))))
  rw [heq] at ho'
  obtain ⟨h, hh, rfl⟩ := List.mem_map.mp ho'
  have hpp : h ∈ postProcessHeadings (collectHeadings d.pages
      (analyzeDocumentFonts d.pages)
      (calculateSizeThresholds (analyzeDocumentFonts d.pages))
      (pyStrip (toLowerL (extractTitleEnhanced d (analyzeDocumentFonts d.pages))))) :=
    hsub.subset hh
  have hcol := postProcess_subset _ h hpp
  have hsn : StrongNorm h.text := collectHeadings_StrongNorm hnc h hcol
  exact cleanText_fixed hsn

/-- Witness for the amended C8: the control-free document `nctrlDoc`
(whose only outline entry is the syllabus-merged heading
"Zq Heading Syllabus") has all its output texts fixed under the
normalizer. -/
theorem retained_text_normalized_witness :
    SpansNoCtrl nctrlDoc.pages ∧
    ({ level := HLevel.H1, text := "Zq Heading Syllabus".data, page := 1 } : OutHeading) ∈
      (processPdf (Except.ok nctrlDoc)).1.outline ∧
    cleanText ("Zq Heading Syllabus".data) = "Zq Heading Syllabus".data :=
  ⟨by unfold SpansNoCtrl; decide, by decide,
   retained_text_normalized nctrlDoc (by unfold SpansNoCtrl; decide)
     { level := HLevel.H1, text := "Zq Heading Syllabus".data, page := 1 } (by decide)⟩
